import Mathlib

/-!
Shallow embedding of the core of the `yuunagi` backup planner
(`src/binpack.py`, `src/index.py`, `src/lib/Database.py`) together with
theorems settling the specification claims about it.

The embedding follows the Python source line by line:

* `binpack.py`'s `binpack` is modelled by `drainLoop` (the first inner
  `while`, lines 36-45), `pullLoop` (the second inner `while`, lines
  48-62) and `packLoop` (the outer `while True`, lines 34-73).  The outer
  loop is given an explicit fuel argument so that the definition is
  structurally recursive and computable; `binpack` supplies
  `stream.length + 1` units of fuel, which the termination argument
  (each finalized block consumes at least one item from
  `stream ++ delayed`, and `delayed` starts empty) shows to be enough.
* `index.py`'s `PackState._add_file` / `_add_dir` / `_add_path` are
  modelled by `addFile` / `addDir` / `addPath` over a mutual inductive
  filesystem tree, with the SQLite `pkg` table modelled as a list of
  rows (no primary key in the source schema) and `time()` modelled as a
  strictly increasing counter threaded through the scan state.
* `lib/Database.py`'s `set_group_distribution` and
  `iter_path_group_sizes` are modelled together with the relevant parts
  of SQLite semantics (no unique constraint on `data_distribution`, the
  numeric `+` operator, double-quoted-string fallback, and `like()`).
-/

namespace Yuunagi

/-! ## Bin packing: `src/binpack.py`, `binpack` -/

/-- Constant `MAX_DELAY_CNT` from `binpack.py` line 18: the maximum number of items
kept in the `delayed` list. -/
def MAX_DELAY_CNT : Nat := 5

/-- A dropped item, together with the loop state at the moment of the drop.
The drop happens at `binpack.py` line 62: the pulled item neither fits the
current block (`item_size + cur_block_size > block_size` while
`cur_block_len != 0`) nor can be delayed (`len(delayed) >= MAX_DELAY_CNT`),
and the `break` silently loses it. -/
structure DropEv where
  item : String × Nat
  curSize : Nat
  curLen : Nat
  delayedLen : Nat
deriving DecidableEq, Repr

/-- Result of the first inner `while` loop of `binpack` (lines 36-45). -/
structure DrainOut where
  delayed : List (String × Nat)
  size : Nat
  len : Nat
  placed : List (String × Nat)
deriving DecidableEq, Repr

/-- First inner `while` loop of `binpack` (lines 36-45): pop delayed items
from the front while the head fits
(`item_size + cur_block_size <= block_size`) or the block is empty
(`cur_block_size == 0`); each popped item is saved into the current block. -/
def drainLoop (block_size : Nat) (delayed : List (String × Nat)) (size len : Nat) : DrainOut :=
  match delayed with
  | [] => ⟨[], size, len, []⟩
  | (i, s) :: rest =>
    if s + size ≤ block_size ∨ size = 0 then
      let r := drainLoop block_size rest (size + s) (len + 1)
      ⟨r.delayed, r.size, r.len, (i, s) :: r.placed⟩
    else ⟨(i, s) :: rest, size, len, []⟩

/-- Result of the second inner `while` loop of `binpack` (lines 48-62). -/
structure PullOut where
  stream : List (String × Nat)
  size : Nat
  len : Nat
  delayed : List (String × Nat)
  placed : List (String × Nat)
  dropped : List DropEv
deriving DecidableEq, Repr

/-- Second inner `while` loop of `binpack` (lines 48-62): while
`cur_block_size < block_size`, pull the next stream item; save it into the
current block if it fits (`item_size + cur_block_size <= block_size`) or the
block is empty (`cur_block_len == 0`); otherwise append it to `delayed` if
`len(delayed) < MAX_DELAY_CNT`, and otherwise drop it and `break`. -/
def pullLoop (block_size : Nat) (stream : List (String × Nat)) (size len : Nat)
    (delayed : List (String × Nat)) : PullOut :=
  if size < block_size then
    match stream with
    | [] => ⟨[], size, len, delayed, [], []⟩
    | (i, s) :: rest =>
      if s + size ≤ block_size ∨ len = 0 then
        let r := pullLoop block_size rest (size + s) (len + 1) delayed
        ⟨r.stream, r.size, r.len, r.delayed, (i, s) :: r.placed, r.dropped⟩
      else if delayed.length < MAX_DELAY_CNT then
        pullLoop block_size rest size len (delayed ++ [(i, s)])
      else ⟨rest, size, len, delayed, [], [⟨(i, s), size, len, delayed.length⟩]⟩
  else ⟨stream, size, len, delayed, [], []⟩

/-- Total size of a list of `(itemId, size)` items. -/
def sumSizes (l : List (String × Nat)) : Nat := (l.map Prod.snd).sum

/-- Result of the whole `binpack` run.  `saves` is the exact sequence of
`save_data((item_id, cur_block_id))` calls, `blocks` records the items of
each finalized block in finalization order, `droppedEv` the drop events,
and `assertOk` whether the assert at lines 68-69 held at every
finalization. -/
structure PackOut where
  saves : List (String × Nat)
  blocks : List (List (String × Nat))
  droppedEv : List DropEv
  assertOk : Bool
deriving DecidableEq, Repr

/-- The outer `while True` loop of `binpack` (lines 34-73), one fuel unit
per iteration.  Note that the source resets `cur_block_size` and
`cur_block_len` at lines 72-73 but never increments `cur_block_id`, so the
recursive call passes `cur_block_id` along unchanged. -/
def packLoop (block_size : Nat) :
    Nat → List (String × Nat) → List (String × Nat) → Nat → PackOut
  | 0, _, _, _ => ⟨[], [], [], true⟩
  | fuel + 1, stream, delayed, cur_block_id =>
    let d := drainLoop block_size delayed 0 0
    let p := pullLoop block_size stream d.size d.len d.delayed
    if p.len = 0 then
      ⟨[], [], p.dropped, true⟩
    else
      let items := d.placed ++ p.placed
      let rest := packLoop block_size fuel p.stream p.delayed cur_block_id
      ⟨items.map (fun x => (x.1, cur_block_id)) ++ rest.saves,
       items :: rest.blocks,
       p.dropped ++ rest.droppedEv,
       (decide (p.size ≤ block_size) || decide (p.len = 1)) && rest.assertOk⟩

/-- Function `binpack(it, block_size, save_data)` from `binpack.py`:
`cur_block_id = 0`, `cur_block_size = 0`, `cur_block_len = 0`, `delayed`
empty.  `stream.length + 1` fuel units suffice for the outer loop, since
every non-final iteration removes at least one item from
`stream ++ delayed` and `delayed` starts empty. -/
def binpack (stream : List (String × Nat)) (block_size : Nat) : PackOut :=
  packLoop block_size (stream.length + 1) stream [] 0

/-! ### Basic accounting lemmas for the two inner loops -/

theorem drainLoop_spec (bs : Nat) (delayed : List (String × Nat)) (size len : Nat) :
    delayed = (drainLoop bs delayed size len).placed ++ (drainLoop bs delayed size len).delayed ∧
    (drainLoop bs delayed size len).size = size + sumSizes (drainLoop bs delayed size len).placed ∧
    (drainLoop bs delayed size len).len = len + (drainLoop bs delayed size len).placed.length := by
  induction delayed generalizing size len with
  | nil => simp [drainLoop, sumSizes]
  | cons hd t ih =>
    obtain ⟨i, s⟩ := hd
    by_cases hc : s + size ≤ bs ∨ size = 0
    · have h := ih (size + s) (len + 1)
      simp only [drainLoop, if_pos hc]
      refine ⟨?_, ?_, ?_⟩
      · simpa using h.1
      · simp only [sumSizes, List.map_cons, List.sum_cons]
        have := h.2.1
        simp only [sumSizes] at this
        omega
      · have := h.2.2
        simp only [List.length_cons]
        omega
    · simp [drainLoop, if_neg hc, sumSizes]

theorem drainLoop_inv (bs : Nat) (delayed : List (String × Nat)) (size len : Nat)
    (hpos : ∀ x ∈ delayed, 0 < x.2)
    (h0 : size = 0 → len = 0) (hover : bs < size → len = 1) :
    ((drainLoop bs delayed size len).size = 0 → (drainLoop bs delayed size len).len = 0) ∧
    (bs < (drainLoop bs delayed size len).size → (drainLoop bs delayed size len).len = 1) ∧
    (∀ x ∈ (drainLoop bs delayed size len).delayed, 0 < x.2) := by
  induction delayed generalizing size len with
  | nil => exact ⟨h0, hover, by simp [drainLoop]⟩
  | cons hd t ih =>
    obtain ⟨i, s⟩ := hd
    have hs : 0 < s := hpos (i, s) (by simp)
    by_cases hc : s + size ≤ bs ∨ size = 0
    · have h := ih (size + s) (len + 1)
        (fun x hx => hpos x (by simp [hx]))
        (by omega)
        (by
          intro hbs
          rcases hc with hfit | hz
          · omega
          · have := h0 hz
            omega)
      simp only [drainLoop, if_pos hc]
      exact h
    · simp only [drainLoop, if_neg hc]
      exact ⟨h0, hover, hpos⟩

theorem pullLoop_lengths (bs : Nat) (stream : List (String × Nat)) (size len : Nat)
    (delayed : List (String × Nat)) :
    (pullLoop bs stream size len delayed).stream.length +
      (pullLoop bs stream size len delayed).delayed.length +
      (pullLoop bs stream size len delayed).placed.length +
      (pullLoop bs stream size len delayed).dropped.length
      = stream.length + delayed.length := by
  induction stream generalizing size len delayed with
  | nil =>
    by_cases h : size < bs <;> simp [pullLoop, h]
  | cons hd t ih =>
    obtain ⟨i, s⟩ := hd
    by_cases h : size < bs
    · by_cases hc : s + size ≤ bs ∨ len = 0
      · have := ih (size + s) (len + 1) delayed
        simp only [pullLoop, if_pos h, if_pos hc, List.length_cons]
        omega
      · by_cases hd5 : delayed.length < MAX_DELAY_CNT
        · have hih := ih size len (delayed ++ [(i, s)])
          simp only [pullLoop, if_pos h, if_neg hc, if_pos hd5]
          simp only [List.length_append, List.length_cons, List.length_nil] at hih
          simp only [List.length_cons]
          omega
        · simp only [pullLoop, if_pos h, if_neg hc, if_neg hd5, List.length_cons,
            List.length_nil]
          omega
    · simp [pullLoop, h]

theorem pullLoop_spec (bs : Nat) (stream : List (String × Nat)) (size len : Nat)
    (delayed : List (String × Nat)) :
    ∃ pushed,
      (pullLoop bs stream size len delayed).delayed = delayed ++ pushed ∧
      (pullLoop bs stream size len delayed).len
        = len + (pullLoop bs stream size len delayed).placed.length ∧
      (pullLoop bs stream size len delayed).size
        = size + sumSizes (pullLoop bs stream size len delayed).placed ∧
      ∀ x : String × Nat,
        stream.count x
          = (pullLoop bs stream size len delayed).placed.count x + pushed.count x +
            ((pullLoop bs stream size len delayed).dropped.map DropEv.item).count x +
            (pullLoop bs stream size len delayed).stream.count x := by
  induction stream generalizing size len delayed with
  | nil =>
    by_cases h : size < bs <;>
      exact ⟨[], by simp [pullLoop, h, sumSizes]⟩
  | cons hd t ih =>
    obtain ⟨i, s⟩ := hd
    by_cases h : size < bs
    · by_cases hc : s + size ≤ bs ∨ len = 0
      · obtain ⟨pushed, h1, h2, h3, h4⟩ := ih (size + s) (len + 1) delayed
        refine ⟨pushed, ?_, ?_, ?_, ?_⟩ <;>
          simp only [pullLoop, if_pos h, if_pos hc]
        · exact h1
        · simp only [List.length_cons]; omega
        · simp only [sumSizes, List.map_cons, List.sum_cons]
          simp only [sumSizes] at h3
          omega
        · intro x
          have h5 := h4 x
          by_cases hx : x = (i, s)
          · subst hx
            simp only [List.count_cons_self]
            omega
          · simp only [List.count_cons_of_ne hx]
            omega
      · by_cases hd5 : delayed.length < MAX_DELAY_CNT
        · obtain ⟨pushed, h1, h2, h3, h4⟩ := ih size len (delayed ++ [(i, s)])
          refine ⟨(i, s) :: pushed, ?_, ?_, ?_, ?_⟩ <;>
            simp only [pullLoop, if_pos h, if_neg hc, if_pos hd5]
          · rw [h1, List.append_assoc]; simp
          · exact h2
          · exact h3
          · intro x
            have h5 := h4 x
            by_cases hx : x = (i, s)
            · subst hx
              simp only [List.count_cons_self]
              omega
            · simp only [List.count_cons_of_ne hx]
              omega
        · refine ⟨[], ?_, ?_, ?_, ?_⟩ <;>
            simp only [pullLoop, if_pos h, if_neg hc, if_neg hd5]
          · simp
          · simp
          · simp [sumSizes]
          · intro x
            simp only [List.map_cons, List.map_nil]
            by_cases hx : x = (i, s)
            · subst hx
              simp only [List.count_cons_self, List.count_nil]
              omega
            · simp only [List.count_cons_of_ne hx, List.count_nil]
              omega
    · exact ⟨[], by simp [pullLoop, h, sumSizes]⟩

theorem pullLoop_inv (bs : Nat) (stream : List (String × Nat)) (size len : Nat)
    (delayed : List (String × Nat))
    (hover : bs < size → len = 1)
    (hpos : ∀ x ∈ delayed, 0 < x.2) :
    (bs < (pullLoop bs stream size len delayed).size →
      (pullLoop bs stream size len delayed).len = 1) ∧
    (∀ x ∈ (pullLoop bs stream size len delayed).delayed, 0 < x.2) ∧
    (delayed.length ≤ MAX_DELAY_CNT →
      (pullLoop bs stream size len delayed).delayed.length ≤ MAX_DELAY_CNT) ∧
    (delayed.length ≤ MAX_DELAY_CNT →
      ∀ ev ∈ (pullLoop bs stream size len delayed).dropped,
        bs < ev.item.2 + ev.curSize ∧ ev.curLen ≠ 0 ∧ ev.delayedLen = MAX_DELAY_CNT) := by
  induction stream generalizing size len delayed with
  | nil =>
    by_cases h : size < bs
    · simp only [pullLoop, if_pos h]
      exact ⟨by intro hx; omega, hpos, fun hle => hle, by simp⟩
    · simp only [pullLoop, if_neg h]
      exact ⟨hover, hpos, fun hle => hle, by simp⟩
  | cons hd t ih =>
    obtain ⟨i, s⟩ := hd
    by_cases h : size < bs
    · by_cases hc : s + size ≤ bs ∨ len = 0
      · have hover2 : bs < size + s → len + 1 = 1 := by
          intro hbs
          rcases hc with hfit | hz
          · omega
          · omega
        have hrec := ih (size + s) (len + 1) delayed hover2 hpos
        simp only [pullLoop, if_pos h, if_pos hc]
        exact hrec
      · have hns : ¬ (s + size ≤ bs) := fun hf => hc (Or.inl hf)
        have hnl : len ≠ 0 := fun hz => hc (Or.inr hz)
        by_cases hd5 : delayed.length < MAX_DELAY_CNT
        · have hsp : 0 < s := by omega
          have hpos2 : ∀ x ∈ delayed ++ [(i, s)], 0 < x.2 := by
            intro x hx
            rcases List.mem_append.mp hx with hx1 | hx2
            · exact hpos x hx1
            · rw [List.mem_singleton] at hx2; subst hx2; exact hsp
          have hrec := ih size len (delayed ++ [(i, s)]) hover hpos2
          have hlen2 : (delayed ++ [(i, s)]).length = delayed.length + 1 := by simp
          simp only [pullLoop, if_pos h, if_neg hc, if_pos hd5]
          refine ⟨hrec.1, hrec.2.1, ?_, ?_⟩
          · intro _
            exact hrec.2.2.1 (by omega)
          · intro _
            exact hrec.2.2.2 (by omega)
        · simp only [pullLoop, if_pos h, if_neg hc, if_neg hd5]
          refine ⟨by intro hx; omega, hpos, fun hle => hle, ?_⟩
          intro hle ev hev
          rw [List.mem_singleton] at hev
          subst hev
          exact ⟨by show bs < s + size; omega, hnl,
            by show delayed.length = MAX_DELAY_CNT; omega⟩
    · simp only [pullLoop, if_neg h]
      exact ⟨hover, hpos, fun hle => hle, by simp⟩

theorem sumSizes_append (a b : List (String × Nat)) :
    sumSizes (a ++ b) = sumSizes a + sumSizes b := by
  simp [sumSizes]

theorem drainLoop_first_placed (bs : Nat) (i : String) (s : Nat) (t : List (String × Nat)) :
    (drainLoop bs ((i, s) :: t) 0 0).len ≠ 0 := by
  obtain ⟨h1, h2, h3⟩ := drainLoop_spec bs t (0 + s) (0 + 1)
  have hr : (drainLoop bs ((i, s) :: t) 0 0).len = (drainLoop bs t (0 + s) (0 + 1)).len := by
    rw [drainLoop, if_pos (Or.inr rfl)]
  rw [hr]
  omega

theorem pullLoop_first_placed (bs : Nat) (i : String) (s : Nat) (t : List (String × Nat))
    (hbs : 0 < bs) :
    (pullLoop bs ((i, s) :: t) 0 0 []).len ≠ 0 := by
  obtain ⟨pushed, h1, h2, h3, h4⟩ := pullLoop_spec bs t (0 + s) (0 + 1) []
  have hr : (pullLoop bs ((i, s) :: t) 0 0 []).len = (pullLoop bs t (0 + s) (0 + 1) []).len := by
    rw [pullLoop, if_pos hbs]
    rw [if_pos (Or.inr rfl)]
  rw [hr]
  omega

/-! ### The outer loop: block invariants -/

theorem packLoop_blocks (bs fuel : Nat) :
    ∀ (stream delayed : List (String × Nat)) (b_id : Nat),
      (∀ x ∈ delayed, 0 < x.2) →
      (∀ b ∈ (packLoop bs fuel stream delayed b_id).blocks,
          sumSizes b ≤ bs ∨ b.length = 1) ∧
      (packLoop bs fuel stream delayed b_id).assertOk = true := by
  induction fuel with
  | zero =>
    intro stream delayed b_id _
    simp [packLoop]
  | succ n ih =>
    intro stream delayed b_id hpos
    have hdr := drainLoop_inv bs delayed 0 0 hpos (fun _ => rfl) (by omega)
    have hdsp := drainLoop_spec bs delayed 0 0
    have hpl := pullLoop_inv bs stream (drainLoop bs delayed 0 0).size
      (drainLoop bs delayed 0 0).len (drainLoop bs delayed 0 0).delayed hdr.2.1 hdr.2.2
    obtain ⟨pushed, hp1, hp2, hp3, _⟩ := pullLoop_spec bs stream (drainLoop bs delayed 0 0).size
      (drainLoop bs delayed 0 0).len (drainLoop bs delayed 0 0).delayed
    set d := drainLoop bs delayed 0 0 with hd
    set p := pullLoop bs stream d.size d.len d.delayed with hp
    by_cases hz : p.len = 0
    · simp [packLoop, ← hd, ← hp, hz]
    · have hrec := ih p.stream p.delayed b_id hpl.2.1
      have hsum : p.size = sumSizes (d.placed ++ p.placed) := by
        rw [sumSizes_append]
        omega
      have hlen : p.len = (d.placed ++ p.placed).length := by
        rw [List.length_append]
        omega
      simp only [packLoop, ← hd, ← hp, if_neg hz]
      constructor
      · intro b hb
        rcases List.mem_cons.mp hb with hb1 | hb2
        · subst hb1
          by_cases hfit : p.size ≤ bs
          · exact Or.inl (by omega)
          · refine Or.inr ?_
            have := hpl.1 (by omega)
            omega
        · exact hrec.1 b hb2
      · rw [hrec.2]
        by_cases hfit : p.size ≤ bs
        · simp [hfit]
        · have := hpl.1 (by omega)
          simp [this]

/-! ### The outer loop: conservation and drop accounting -/

theorem packLoop_saves (bs fuel : Nat) :
    ∀ (stream delayed : List (String × Nat)) (b_id : Nat),
      (packLoop bs fuel stream delayed b_id).saves
        = (packLoop bs fuel stream delayed b_id).blocks.flatten.map (fun x => (x.1, b_id)) := by
  induction fuel with
  | zero =>
    intro stream delayed b_id
    simp [packLoop]
  | succ n ih =>
    intro stream delayed b_id
    set d := drainLoop bs delayed 0 0 with hd
    set p := pullLoop bs stream d.size d.len d.delayed with hp
    by_cases hz : p.len = 0
    · simp [packLoop, ← hd, ← hp, hz]
    · have hrec := ih p.stream p.delayed b_id
      simp only [packLoop, ← hd, ← hp, if_neg hz, List.flatten_cons, List.map_append]
      rw [hrec]

theorem packLoop_drops (bs fuel : Nat) :
    ∀ (stream delayed : List (String × Nat)) (b_id : Nat),
      delayed.length ≤ MAX_DELAY_CNT →
      (∀ x ∈ delayed, 0 < x.2) →
      ∀ ev ∈ (packLoop bs fuel stream delayed b_id).droppedEv,
        bs < ev.item.2 + ev.curSize ∧ ev.curLen ≠ 0 ∧ ev.delayedLen = MAX_DELAY_CNT := by
  induction fuel with
  | zero =>
    intro stream delayed b_id _ _
    simp [packLoop]
  | succ n ih =>
    intro stream delayed b_id hlen hpos
    have hdr := drainLoop_inv bs delayed 0 0 hpos (fun _ => rfl) (by omega)
    have hdsp := drainLoop_spec bs delayed 0 0
    have hpl := pullLoop_inv bs stream (drainLoop bs delayed 0 0).size
      (drainLoop bs delayed 0 0).len (drainLoop bs delayed 0 0).delayed hdr.2.1 hdr.2.2
    set d := drainLoop bs delayed 0 0 with hd
    set p := pullLoop bs stream d.size d.len d.delayed with hp
    have hdlen : d.delayed.length ≤ MAX_DELAY_CNT := by
      have : delayed.length = d.placed.length + d.delayed.length := by
        rw [hdsp.1, List.length_append]
      omega
    by_cases hz : p.len = 0
    · simp only [packLoop, ← hd, ← hp, if_pos hz]
      exact hpl.2.2.2 hdlen
    · intro ev hev
      simp only [packLoop, ← hd, ← hp, if_neg hz, List.mem_append] at hev
      rcases hev with hev1 | hev2
      · exact hpl.2.2.2 hdlen ev hev1
      · exact ih p.stream p.delayed b_id (hpl.2.2.1 hdlen) hpl.2.1 ev hev2

theorem packLoop_conservation (bs fuel : Nat) (hbs : 1 ≤ bs) :
    ∀ (stream delayed : List (String × Nat)) (b_id : Nat),
      stream.length + delayed.length < fuel →
      ∀ x : String × Nat,
        stream.count x + delayed.count x
          = (packLoop bs fuel stream delayed b_id).blocks.flatten.count x +
            ((packLoop bs fuel stream delayed b_id).droppedEv.map DropEv.item).count x := by
  induction fuel with
  | zero =>
    intro stream delayed b_id hflt
    omega
  | succ n ih =>
    intro stream delayed b_id hflt x
    have hdsp := drainLoop_spec bs delayed 0 0
    obtain ⟨pushed, hp1, hp2, hp3, hp4⟩ := pullLoop_spec bs stream (drainLoop bs delayed 0 0).size
      (drainLoop bs delayed 0 0).len (drainLoop bs delayed 0 0).delayed
    have hplen := pullLoop_lengths bs stream (drainLoop bs delayed 0 0).size
      (drainLoop bs delayed 0 0).len (drainLoop bs delayed 0 0).delayed
    set d := drainLoop bs delayed 0 0 with hd
    set p := pullLoop bs stream d.size d.len d.delayed with hp
    by_cases hz : p.len = 0
    · -- terminal iteration: everything must already be empty
      have hdel : delayed = [] := by
        cases hdel : delayed with
        | nil => rfl
        | cons hd2 t2 =>
          obtain ⟨i, s⟩ := hd2
          exfalso
          have h1 := drainLoop_first_placed bs i s t2
          rw [← hdel] at h1
          rw [← hd] at h1
          omega
      have hstr : stream = [] := by
        cases hstr : stream with
        | nil => rfl
        | cons hd2 t2 =>
          obtain ⟨i, s⟩ := hd2
          exfalso
          have hdid : d = ⟨[], 0, 0, []⟩ := by
            rw [hd, hdel]
            rfl
          have h1 := pullLoop_first_placed bs i s t2 (by omega)
          rw [← hstr] at h1
          rw [hp, hdid] at hz
          exact h1 hz
      have hpempty : p = ⟨[], 0, 0, [], [], []⟩ := by
        rw [hp, hd, hdel, hstr]
        have h0 : (0 : Nat) < bs := by omega
        simp [drainLoop, pullLoop, h0]
      have hpd : p.dropped = [] := by rw [hpempty]
      simp only [packLoop, ← hd, ← hp, if_pos hz, hpd]
      rw [hdel, hstr]
      simp
    · have hlt : p.stream.length + p.delayed.length < n := by
        have hdl : delayed.length = d.placed.length + d.delayed.length := by
          rw [hdsp.1, List.length_append]
        omega
      have hrec := ih p.stream p.delayed b_id hlt x
      have hdc : delayed.count x = d.placed.count x + d.delayed.count x := by
        rw [hdsp.1, List.count_append]
      have hpdc : p.delayed.count x = d.delayed.count x + pushed.count x := by
        rw [hp1, List.count_append]
      simp only [packLoop, ← hd, ← hp, if_neg hz, List.flatten_cons, List.count_append,
        List.map_append]
      have hp4x := hp4 x
      omega

/-! ### Claim theorems about `binpack` -/

/-- C1: for every input stream of `(itemId, size)` items and every capacity,
every volume finalized by `binpack` has a total assigned size that is at most
the capacity, except that a volume containing exactly one item is allowed to
exceed the capacity. -/
theorem binpack_capacity_invariant (stream : List (String × Nat)) (block_size : Nat)
    (b : List (String × Nat)) (hb : b ∈ (binpack stream block_size).blocks) :
    sumSizes b ≤ block_size ∨ b.length = 1 :=
  (packLoop_blocks block_size (stream.length + 1) stream [] 0 (by simp)).1 b hb

/-- Witness for C1 at a concrete input. -/
theorem binpack_capacity_invariant_witness :
    [("a", 3)] ∈ (binpack [("a", 3)] 10).blocks ∧
      (sumSizes [("a", 3)] ≤ 10 ∨ ([("a", 3)] : List (String × Nat)).length = 1) :=
  ⟨by decide, binpack_capacity_invariant [("a", 3)] 10 [("a", 3)] (by decide)⟩

/-- C10: for every finite input stream in which every item's size is strictly
positive, the assert at `binpack.py` lines 68-69 holds at every block
finalization: the accumulated size is at most the block size or the block
holds exactly one item.  (The proof of `packLoop_blocks` in fact never needs
the positivity of the stream sizes.) -/
theorem binpack_assert_never_fails (stream : List (String × Nat)) (block_size : Nat)
    (hpos : ∀ x ∈ stream, 0 < x.2) :
    (binpack stream block_size).assertOk = true :=
  (packLoop_blocks block_size (stream.length + 1) stream [] 0 (by simp)).2

/-- Witness for C10 at a concrete input. -/
theorem binpack_assert_never_fails_witness :
    (∀ x ∈ [("a", 2), ("b", 9)], 0 < x.2) ∧
      (binpack [("a", 2), ("b", 9)] 3).assertOk = true :=
  ⟨by decide, binpack_assert_never_fails [("a", 2), ("b", 9)] 3 (by decide)⟩

/-- C9, counterexample: an item strictly larger than the capacity can be
rejected.  With capacity 10 and stream
`a:1, b:10, c:10, d:10, e:10, f:10, g:15`, the oversized item `g` arrives
while the block holds `a` and the delayed queue holds `b..f` (5 items), so
line 62 of `binpack.py` drops it: `g` is never passed to `save_data`. -/
theorem binpack_oversized_dropped_cex :
    ("g", 15) ∈ [("a", 1), ("b", 10), ("c", 10), ("d", 10), ("e", 10), ("f", 10), ("g", 15)] ∧
    10 < 15 ∧
    (binpack [("a", 1), ("b", 10), ("c", 10), ("d", 10), ("e", 10), ("f", 10), ("g", 15)]
        10).saves.map Prod.fst = ["a", "b", "c", "d", "e", "f"] := by
  decide

/-- C9 (amended): an item strictly larger than the capacity is placed alone
in its finalized volume whenever it is assigned at all; like any other item
it can still be dropped when it arrives while the current volume is
non-empty and the delayed queue is full. -/
theorem binpack_oversized_alone (stream : List (String × Nat)) (block_size : Nat)
    (b : List (String × Nat)) (hb : b ∈ (binpack stream block_size).blocks)
    (x : String × Nat) (hx : x ∈ b) (hbig : block_size < x.2) :
    b = [x] := by
  have hinv := (packLoop_blocks block_size (stream.length + 1) stream [] 0 (by simp)).1 b hb
  have hle : x.2 ≤ sumSizes b := by
    have : x.2 ∈ b.map Prod.snd := List.mem_map_of_mem Prod.snd hx
    exact List.single_le_sum (fun y _ => Nat.zero_le y) x.2 this
  have hlen1 : b.length = 1 := by
    rcases hinv with h1 | h2
    · omega
    · exact h2
  obtain ⟨a, ha⟩ := List.length_eq_one.mp hlen1
  subst ha
  rw [List.mem_singleton] at hx
  rw [hx]

/-- Witness for C9's amended theorem at a concrete input. -/
theorem binpack_oversized_alone_witness :
    ([("a", 15)] ∈ (binpack [("a", 15)] 10).blocks ∧ ("a", 15) ∈ [("a", 15)] ∧ 10 < 15) ∧
      [("a", 15)] = [(("a", 15) : String × Nat)] :=
  ⟨⟨by decide, by decide, by decide⟩,
    binpack_oversized_alone [("a", 15)] 10 [("a", 15)] (by decide) ("a", 15)
      (by decide) (by decide)⟩

/-- C4, counterexample: with capacity 0 the very first pull-loop guard
`cur_block_size < block_size` is false, the block stays empty and the outer
loop terminates immediately, so the item `a` is never assigned even though
the documented drop condition (queue of 5, non-empty block) never occurred:
no drop event is recorded. -/
theorem binpack_zero_capacity_cex :
    (binpack [("a", 1)] 0).saves = [] ∧ (binpack [("a", 1)] 0).droppedEv = [] := by
  decide

/-- C4 (amended to capacities ≥ 1): every stream item is placed in exactly
one finalized volume or recorded as dropped (counting multiplicities), each
placed item is emitted to `save_data` exactly once (always with block id 0,
since the source never increments `cur_block_id`), and every drop happened
exactly under the documented condition: the item did not fit the current
non-empty volume and the delayed queue already held `MAX_DELAY_CNT = 5`
items. -/
theorem binpack_completeness (stream : List (String × Nat)) (block_size : Nat)
    (hbs : 1 ≤ block_size) :
    (∀ x : String × Nat,
        stream.count x
          = (binpack stream block_size).blocks.flatten.count x +
            ((binpack stream block_size).droppedEv.map DropEv.item).count x) ∧
    (binpack stream block_size).saves
      = (binpack stream block_size).blocks.flatten.map (fun x => (x.1, 0)) ∧
    (∀ ev ∈ (binpack stream block_size).droppedEv,
        block_size < ev.item.2 + ev.curSize ∧ ev.curLen ≠ 0 ∧
          ev.delayedLen = MAX_DELAY_CNT) := by
  refine ⟨?_, ?_, ?_⟩
  · intro x
    have h := packLoop_conservation block_size (stream.length + 1) hbs stream [] 0
      (by simp) x
    simpa using h
  · exact packLoop_saves block_size (stream.length + 1) stream [] 0
  · exact packLoop_drops block_size (stream.length + 1) stream [] 0 (by simp [MAX_DELAY_CNT])
      (by simp)

/-- Witness for C4's amended theorem at a concrete input. -/
theorem binpack_completeness_witness :
    1 ≤ 1 ∧
      ((∀ x : String × Nat,
          [("a", 1)].count x
            = (binpack [("a", 1)] 1).blocks.flatten.count x +
              ((binpack [("a", 1)] 1).droppedEv.map DropEv.item).count x) ∧
      (binpack [("a", 1)] 1).saves
        = (binpack [("a", 1)] 1).blocks.flatten.map (fun x => (x.1, 0)) ∧
      (∀ ev ∈ (binpack [("a", 1)] 1).droppedEv,
          1 < ev.item.2 + ev.curSize ∧ ev.curLen ≠ 0 ∧
            ev.delayedLen = MAX_DELAY_CNT)) :=
  ⟨by decide, binpack_completeness [("a", 1)] 1 (by decide)⟩

/-! ## The store: `src/lib/Database.py`

`data_distribution` is created (`create_schema`, lines 149-155) as

    create table if not exists data_distribution (
        path_group text references path_groups (prefix),
        target_media text
    )

with no primary key and no unique constraint, and only non-unique indexes
on each column.  In SQLite, `INSERT OR REPLACE` only replaces rows that
conflict on a `PRIMARY KEY` or `UNIQUE` constraint; with no such
constraint it behaves exactly like a plain `INSERT`.  The table is
therefore modelled as a list of `(path_group, target_media)` rows in
insertion (rowid) order. -/

/-- Method `IndexDatabase.set_group_distribution` (Database.py lines 338-348):
`insert or replace into data_distribution values (:path_group, :target_media)`.
Because `data_distribution` has no primary key or unique constraint, the
`OR REPLACE` clause never fires and the statement appends a new row. -/
def set_group_distribution (path_group target_media : String)
    (tbl : List (String × String)) : List (String × String) :=
  tbl ++ [(path_group, target_media)]

/-- C5, counterexample: two successive `set_group_distribution` calls for
the same group on an initially empty table leave TWO rows for that group,
not one; the claimed upsert semantics fail because `data_distribution` has
no primary key or unique constraint for `INSERT OR REPLACE` to act on. -/
theorem set_group_distribution_no_upsert_cex :
    (set_group_distribution "g" "v2" (set_group_distribution "g" "v1" [])).filter
        (fun r => r.1 == "g")
      = [("g", "v1"), ("g", "v2")] ∧
    ¬ ((set_group_distribution "g" "v2" (set_group_distribution "g" "v1" [])).filter
        (fun r => r.1 == "g")
      = [("g", "v2")]) := by
  constructor
  · rfl
  · decide

/-- C5: what the code actually guarantees after a second assignment for the
same group: the table ends with the new row appended, and every previously
present row (including the first assignment) is still there. -/
theorem set_group_distribution_appends (g v1 v2 : String) (tbl : List (String × String)) :
    set_group_distribution g v2 (set_group_distribution g v1 tbl)
      = tbl ++ [(g, v1), (g, v2)] := by
  simp [set_group_distribution]

/-! ### `iter_path_group_sizes` and the SQLite expression semantics it hits

`IndexDatabase.iter_path_group_sizes` (Database.py lines 295-309) runs

    select prefix, sum(size) from
        path_groups left join paths on like(prefix+"%", paths.path)
    [ where category = :category ]
    group by prefix

In SQLite:
* `+` is numeric addition, not string concatenation; a text operand is
  coerced to the number its longest numeric leading part denotes, else 0.
* `"%"` is a double-quoted identifier; there is no column named `%`, so
  the legacy fallback treats it as the string literal `'%'`, which
  coerces to 0.
* `like(X, Y)` is `Y LIKE X`, with pattern `X`; a numeric pattern is
  converted to its text form before matching.  `%` matches any sequence,
  `_` any single character, other characters match case-insensitively
  (ASCII).
So the join condition is `paths.path LIKE '<numeric value of prefix>'`:
for an ordinary non-numeric prefix, `paths.path LIKE '0'`.  A group with
no matching `paths` row still produces one output row via the left join,
with `sum(size)` equal to SQL `NULL` (modelled as `none`). -/

/-- Value of the longest numeric leading part of a string (0 if none):
SQLite's coercion of text to a number in an arithmetic context, restricted
to the nonnegative-integer case. -/
def leadingNum : List Char → Nat → Nat
  | c :: rest, acc => if c.isDigit then leadingNum rest (acc * 10 + (c.toNat - 48)) else acc
  | [], acc => acc

/-- SQLite numeric coercion of a text value used as an operand of `+`. -/
def sqliteNum (s : String) : Nat := leadingNum s.data 0

/-- SQLite `LIKE` on character lists: `%` matches any sequence, `_` any
single character, anything else matches case-insensitively.  The first
argument is fuel making the recursion structural; every recursive call
removes at least one character from the pattern or the subject, so
`p.length + s.length + 1` units always suffice. -/
def likeChars : Nat → List Char → List Char → Bool
  | 0, _, _ => false
  | fuel + 1, p, s =>
    match p, s with
    | [], [] => true
    | [], _ :: _ => false
    | '%' :: p2, s =>
      likeChars fuel p2 s ||
        (match s with
         | [] => false
         | _ :: s2 => likeChars fuel ('%' :: p2) s2)
    | '_' :: _, [] => false
    | '_' :: p2, _ :: s2 => likeChars fuel p2 s2
    | _ :: _, [] => false
    | c :: p2, d :: s2 => (c.toLower == d.toLower) && likeChars fuel p2 s2

/-- SQLite `Y LIKE X` with pattern `X` and subject `Y`. -/
def likeMatch (pat s : String) : Bool :=
  likeChars (pat.data.length + s.data.length + 1) pat.data s.data

/-- One row of `path_groups`: `prefix` (named `pfx` here) and nullable
`category` (the `compressable` column is irrelevant to the size query). -/
structure PathGroupRow where
  pfx : String
  category : Option String
deriving DecidableEq, Repr

/-- The pattern value of the join condition `like(prefix+"%", paths.path)`:
`prefix + '%'` evaluates numerically and the resulting number is rendered
back to text for `LIKE`. -/
def joinPattern (pfx : String) : String := toString (sqliteNum pfx + sqliteNum "%")

/-- Insert a group into a prefix-sorted list (`group by prefix` output
order). -/
def insertByPfx (g : PathGroupRow) : List PathGroupRow → List PathGroupRow
  | [] => [g]
  | h :: t => if g.pfx ≤ h.pfx then g :: h :: t else h :: insertByPfx g t

/-- Sort groups by prefix (`group by prefix` output order). -/
def sortByPfx : List PathGroupRow → List PathGroupRow
  | [] => []
  | h :: t => insertByPfx h (sortByPfx t)

/-- Method `IndexDatabase.iter_path_group_sizes` (Database.py lines 295-309):
for each path group (restricted to `category` when given), yield
`(prefix, sum(size))` where the sum ranges over the `paths` rows whose
`path` matches the join condition `like(prefix+"%", paths.path)`; a group
with no matching row yields SQL `NULL` (`none`) via the left join. -/
def iter_path_group_sizes (groups : List PathGroupRow) (paths : List (String × Nat))
    (category : Option String) : List (String × Option Nat) :=
  let gs :=
    match category with
    | none => groups
    | some c => groups.filter (fun g => g.category == some c)
  (sortByPfx gs).map (fun g =>
    let matched := paths.filter (fun p => likeMatch (joinPattern g.pfx) p.1)
    (g.pfx, if matched.isEmpty then none else some (matched.map Prod.snd).sum))

/-- Modelled from the spec's words, for comparison with
`iter_path_group_sizes`: for each group (restricted to one category when
given), the sum of the sizes of all path entries whose path starts with the
group's prefix, in group-prefix order. -/
def specPathGroupSizes (groups : List PathGroupRow) (paths : List (String × Nat))
    (category : Option String) : List (String × Option Nat) :=
  let gs :=
    match category with
    | none => groups
    | some c => groups.filter (fun g => g.category == some c)
  (sortByPfx gs).map (fun g =>
    (g.pfx, some ((paths.filter (fun p => g.pfx.data.isPrefixOf p.1.data)).map Prod.snd).sum))

/-- C6, counterexample: with one group of prefix `a` and one path entry
`(a/x, 10)`, the query yields `(a, NULL)` instead of the claimed
`(a, 10)`: the join pattern `prefix+"%"` evaluates to the number 0 (SQLite
`+` is numeric addition and both operands coerce to 0), so the condition is
`paths.path LIKE '0'`, which `a/x` does not match. -/
theorem iter_path_group_sizes_cex :
    iter_path_group_sizes [⟨"a", none⟩] [("a/x", 10)] none = [("a", none)] ∧
    specPathGroupSizes [⟨"a", none⟩] [("a/x", 10)] none = [("a", some 10)] ∧
    iter_path_group_sizes [⟨"a", none⟩] [("a/x", 10)] none
      ≠ specPathGroupSizes [⟨"a", none⟩] [("a/x", 10)] none := by
  refine ⟨rfl, rfl, ?_⟩
  decide

/-! ## The indexer: `src/index.py`, `PackState`

`PackState.__init__` (lines 48-56) creates the scan's own table

    create table if not exists pkg (
        path text,
        hash blob,
        ty int,
        ix_time real
    )

with four columns — `path`, `hash`, `ty`, `ix_time` — and NO size column
and no primary key.  The table is modelled as a list of `Row`s in rowid
order; `time()` is modelled as a strictly increasing integer counter
threaded through the scan state (each call returns the current value and
bumps it).  The SHA-256 function itself is an opaque parameter
`H : List Nat → List Nat` of the scan; `_add_file` feeds it the
concatenation of the chunks read from the file. -/

/-- Constant `TY_FILE` from `index.py` line 15. -/
def TY_FILE : Nat := 0

/-- Constant `TY_DIR` from `index.py` line 18. -/
def TY_DIR : Nat := 1

/-- One row of the `pkg` table: `(path, hash, ty, ix_time)`. -/
structure Row where
  path : String
  hash : Option (List Nat)
  ty : Nat
  ix_time : Int
deriving DecidableEq, Repr

/-- Query `next(self.db.execute("select * from pkg where path = ?", ...), None)`:
the first row with the given path in rowid order, if any. -/
def lookupPath (store : List Row) (p : String) : Option Row :=
  store.find? (fun r => r.path == p)

/-- Statement `update pkg set hash = .., ty = .., ix_time = .. where path = :path`:
rewrites every row whose path matches (the `pkg` table has no primary
key). -/
def updateRows (store : List Row) (p : String) (h : Option (List Nat)) (ty : Nat)
    (t : Int) : List Row :=
  store.map (fun r => if r.path == p then ⟨r.path, h, ty, t⟩ else r)

/-- Statement `insert into pkg values(..)`: appends a row. -/
def insertRow (store : List Row) (r : Row) : List Row := store ++ [r]

/-- All rows with the given path, in rowid order. -/
def rowsAt (store : List Row) (p : String) : List Row :=
  store.filter (fun r => r.path == p)

/-- State threaded through a scan: the `pkg` table, the clock, the number
of files hashed so far (instrumentation counting executions of the hashing
branch of `_add_file`), and the byte/node progress counters of the
display. -/
structure ScanSt where
  store : List Row
  now : Int
  hashed : Nat
  progBytes : Nat
  progNodes : Nat
deriving DecidableEq, Repr

/-! ### The filesystem model -/

mutual
/-- A filesystem node: a regular file (relative path, content bytes,
mtime) or a directory (relative path, mtime, children).  The first field
is the node's `rel_path`, the value `p.relative_to(rel).as_posix()` that
the source computes for the node when visiting it; carrying it in the
tree is the same information.  `_add_path` (index.py lines 150-154) only
descends into directories and regular files, so only these two kinds are
modelled. -/
inductive FsNode where
  | file : String → List Nat → Int → FsNode
  | dir : String → Int → FsForest → FsNode

/-- A list of filesystem nodes, mutual with `FsNode` so that structural
recursion and induction over the tree are available. -/
inductive FsForest where
  | nil : FsForest
  | cons : FsNode → FsForest → FsForest
end

/-- The node's relative path. -/
def FsNode.rpath : FsNode → String
  | .file p _ _ => p
  | .dir p _ _ => p

/-- Test `v.is_dir()`. -/
def FsNode.isDir : FsNode → Bool
  | .file _ _ _ => false
  | .dir _ _ _ => true

/-- Size `stat().st_size` of a node as used for skipped children: the byte
length of the file content (0 for a directory, which never takes that
branch). -/
def FsNode.diskSize : FsNode → Nat
  | .file _ c _ => c.length
  | .dir _ _ _ => 0

/-! ### Hashing -/

/-- The shared read buffer size (`index.py` line 156): `1024**2 * 8`. -/
def BUF_SIZE : Nat := 1024 * 1024 * 8

/-- The successive chunks returned by `f.readinto1` on the shared buffer:
up to `BUF_SIZE` bytes each, until the read returns 0.  The first argument
is fuel making the recursion structural; each step removes at least one
byte, so `l.length + 1` units always suffice. -/
def chunksFuel : Nat → List Nat → List (List Nat)
  | 0, _ => []
  | fuel + 1, l =>
    if l.isEmpty then [] else l.take BUF_SIZE :: chunksFuel fuel (l.drop BUF_SIZE)

/-- The chunks `_add_file` feeds to `hasher.update`. -/
def chunksOf (l : List Nat) : List (List Nat) := chunksFuel (l.length + 1) l

/-- The digest `hasher.digest()` after the read loop: `H` applied to the
concatenation of all bytes fed to `hasher.update`. -/
def digestOf (H : List Nat → List Nat) (content : List Nat) : List Nat :=
  H (chunksOf content).flatten

/-- The chunks concatenate back to the content, so the digest is `H` of
the whole file content. -/
theorem chunksFuel_flatten (fuel : Nat) (l : List Nat) (hf : l.length < fuel) :
    (chunksFuel fuel l).flatten = l := by
  induction fuel generalizing l with
  | zero => omega
  | succ n ih =>
    by_cases hl : l.isEmpty
    · rw [List.isEmpty_iff] at hl
      simp [chunksFuel, hl]
    · have hne : l ≠ [] := by
        intro hx
        rw [hx] at hl
        exact hl rfl
      have hlen : 0 < l.length := List.length_pos.mpr hne
      simp only [chunksFuel]
      rw [if_neg hl, List.flatten_cons]
      rw [ih (l.drop BUF_SIZE) (by simp [List.length_drop, BUF_SIZE]; omega)]
      exact List.take_append_drop BUF_SIZE l

theorem digestOf_eq (H : List Nat → List Nat) (content : List Nat) :
    digestOf H content = H content := by
  unfold digestOf chunksOf
  rw [chunksFuel_flatten (content.length + 1) content (by omega)]

/-! ### The scan -/

/-- The `rescan` flag of `_add_file` (index.py lines 172-177): `rescan`
starts true and is cleared iff a row exists, its hash is non-null, and
`stat.st_mtime <= last_index_time` (`db_data[3]`). -/
def fileRescan (db_data : Option Row) (mtime : Int) : Bool :=
  match db_data with
  | none => true
  | some r => !(r.hash.isSome && decide (mtime ≤ r.ix_time))

/-- The `full_rescan` flag of `_add_dir` (index.py lines 235-240):
`full_rescan` starts true and is cleared iff a row exists and
`stat.st_mtime < last_index_time`. -/
def dirFullRescan (db_data : Option Row) (mtime : Int) : Bool :=
  match db_data with
  | none => true
  | some r => !(decide (mtime < r.ix_time))

/-- Method `PackState._add_file` (index.py lines 158-223) for the file at
relative path `rp`: look up the row; if `rescan` is cleared, only advance
the progress counters by the file's size and one node; otherwise hash the
content chunk-wise (advancing byte progress by each chunk, in total the
content length), upsert `(rp, digest, TY_FILE, time())`, bump the clock
for the `time()` call, and advance the node counter. -/
def addFile (H : List Nat → List Nat) (rp : String) (content : List Nat) (mtime : Int)
    (st : ScanSt) : ScanSt :=
  if fileRescan (lookupPath st.store rp) mtime then
    ⟨match lookupPath st.store rp with
      | some _ => updateRows st.store rp (some (digestOf H content)) TY_FILE st.now
      | none => insertRow st.store ⟨rp, some (digestOf H content), TY_FILE, st.now⟩,
     st.now + 1, st.hashed + 1, st.progBytes + content.length, st.progNodes + 1⟩
  else
    ⟨st.store, st.now, st.hashed, st.progBytes + content.length, st.progNodes + 1⟩

/-- The `else` branch of the child loop of `_add_dir` (index.py lines
245-248): the non-directory child is not visited; the progress counters
advance by its on-disk size and one node; the store, the clock and the
hash count are untouched. -/
def skipChild (c : FsNode) (st : ScanSt) : ScanSt :=
  ⟨st.store, st.now, st.hashed, st.progBytes + c.diskSize, st.progNodes + 1⟩

/-- The directory upsert after all children are processed (index.py lines
250-273): update (every row at `rp`) if the lookup at the top of
`_add_dir` had found a row, else insert; either way with hash NULL,
`TY_DIR` and `ix_time = time()`; then advance the node counter. -/
def upsertDir (rp : String) (db_exists : Bool) (st : ScanSt) : ScanSt :=
  ⟨if db_exists then updateRows st.store rp none TY_DIR st.now
    else insertRow st.store ⟨rp, none, TY_DIR, st.now⟩,
   st.now + 1, st.hashed, st.progBytes, st.progNodes + 1⟩

mutual
/-- Method `PackState._add_path` (index.py lines 150-154): dispatch on the node
kind.  The directory case is `_add_dir` (lines 225-273): compute
`full_rescan` from the lookup, run the child loop, then upsert the
directory's own row (the lookup result was captured before the
children). -/
def addPath (H : List Nat → List Nat) (n : FsNode) (st : ScanSt) : ScanSt :=
  match n with
  | .file rp content mtime => addFile H rp content mtime st
  | .dir rp mtime cs =>
    upsertDir rp (lookupPath st.store rp).isSome
      (addForest H (dirFullRescan (lookupPath st.store rp) mtime) cs st)

/-- The child loop of `_add_dir` (index.py lines 242-248): a child is
visited (`_add_path`) iff it is a directory or `full_rescan` is set;
otherwise only the progress counters advance. -/
def addForest (H : List Nat → List Nat) (full_rescan : Bool) (cs : FsForest)
    (st : ScanSt) : ScanSt :=
  match cs with
  | .nil => st
  | .cons c rest =>
    addForest H full_rescan rest
      (if c.isDir || full_rescan then addPath H c st else skipChild c st)
end

/-- Method `PackState._add_dir` (index.py lines 225-273) as a named function;
`addPath` on a directory node unfolds to it definitionally. -/
def addDir (H : List Nat → List Nat) (rp : String) (mtime : Int) (cs : FsForest)
    (st : ScanSt) : ScanSt :=
  upsertDir rp (lookupPath st.store rp).isSome
    (addForest H (dirFullRescan (lookupPath st.store rp) mtime) cs st)

mutual
/-- All relative paths of the nodes of a subtree. -/
def nodePaths (n : FsNode) : List String :=
  match n with
  | .file rp _ _ => [rp]
  | .dir rp _ cs => rp :: forestPaths cs

/-- All relative paths of the nodes of a forest. -/
def forestPaths (cs : FsForest) : List String :=
  match cs with
  | .nil => []
  | .cons c rest => nodePaths c ++ forestPaths rest
end

mutual
/-- Pairs `(path, mtime)` of every directory node of a subtree. -/
def nodeDirs (n : FsNode) : List (String × Int) :=
  match n with
  | .file _ _ _ => []
  | .dir rp m cs => (rp, m) :: forestDirs cs

/-- Pairs `(path, mtime)` of every directory node of a forest. -/
def forestDirs (cs : FsForest) : List (String × Int) :=
  match cs with
  | .nil => []
  | .cons c rest => nodeDirs c ++ forestDirs rest
end

mutual
/-- The mtimes of all nodes of a subtree. -/
def nodeMtimes (n : FsNode) : List Int :=
  match n with
  | .file _ _ m => [m]
  | .dir _ m cs => m :: forestMtimes cs

/-- The mtimes of all nodes of a forest. -/
def forestMtimes (cs : FsForest) : List Int :=
  match cs with
  | .nil => []
  | .cons c rest => nodeMtimes c ++ forestMtimes rest
end

/-! ### Unfolding equations of the scan (all definitional) -/

theorem addPath_file (H : List Nat → List Nat) (rp : String) (content : List Nat)
    (mtime : Int) (st : ScanSt) :
    addPath H (FsNode.file rp content mtime) st = addFile H rp content mtime st := rfl

theorem addPath_dir (H : List Nat → List Nat) (rp : String) (mtime : Int)
    (cs : FsForest) (st : ScanSt) :
    addPath H (FsNode.dir rp mtime cs) st
      = upsertDir rp (lookupPath st.store rp).isSome
          (addForest H (dirFullRescan (lookupPath st.store rp) mtime) cs st) := rfl

theorem addForest_nil (H : List Nat → List Nat) (fr : Bool) (st : ScanSt) :
    addForest H fr FsForest.nil st = st := rfl

theorem addForest_cons (H : List Nat → List Nat) (fr : Bool) (c : FsNode)
    (rest : FsForest) (st : ScanSt) :
    addForest H fr (FsForest.cons c rest) st
      = addForest H fr rest
          (if c.isDir || fr then addPath H c st else skipChild c st) := rfl

/-! ### Store lemmas -/

theorem Row.eq_of_fields {a b : Row} (h1 : a.path = b.path) (h2 : a.hash = b.hash)
    (h3 : a.ty = b.ty) (h4 : a.ix_time = b.ix_time) : a = b := by
  cases a
  cases b
  simp_all

theorem lookupPath_eq_head (store : List Row) (p : String) :
    lookupPath store p = (rowsAt store p).head? := by
  induction store with
  | nil => rfl
  | cons r t ih =>
    by_cases h : r.path == p
    · simp [lookupPath, rowsAt, List.find?_cons, List.filter_cons, h]
    · have hfalse : (r.path == p) = false := by simpa using h
      simp only [lookupPath, rowsAt, List.find?_cons, List.filter_cons, hfalse] at ih ⊢
      simpa using ih

theorem rowsAt_insertRow (store : List Row) (r : Row) (q : String) :
    rowsAt (insertRow store r) q
      = rowsAt store q ++ if r.path == q then [r] else [] := by
  simp only [rowsAt, insertRow, List.filter_append, List.filter_cons]
  by_cases h : r.path == q
  · rw [if_pos h, if_pos h]
    rfl
  · rw [if_neg h, if_neg h]
    rfl

theorem rowsAt_map_pathpres (store : List Row) (f : Row → Row)
    (hf : ∀ r, (f r).path = r.path) (q : String) :
    rowsAt (store.map f) q = (rowsAt store q).map f := by
  induction store with
  | nil => rfl
  | cons r tl ih =>
    simp only [List.map_cons, rowsAt, List.filter_cons] at ih ⊢
    rw [hf r]
    by_cases h : r.path == q
    · rw [if_pos h, if_pos h, List.map_cons, ih]
    · rw [if_neg h, if_neg h, ih]

theorem rowsAt_updateRows (store : List Row) (p : String) (h : Option (List Nat))
    (ty : Nat) (t : Int) (q : String) :
    rowsAt (updateRows store p h ty t) q
      = (rowsAt store q).map (fun r => if r.path == p then ⟨r.path, h, ty, t⟩ else r) := by
  refine rowsAt_map_pathpres store _ (fun r => ?_) q
  by_cases hr : r.path == p
  · rw [if_pos hr]
  · rw [if_neg hr]

theorem rowsAt_updateRows_ne (store : List Row) (p : String) (h : Option (List Nat))
    (ty : Nat) (t : Int) (q : String) (hne : p ≠ q) :
    rowsAt (updateRows store p h ty t) q = rowsAt store q := by
  rw [rowsAt_updateRows]
  have : ∀ r ∈ rowsAt store q,
      (if r.path == p then (⟨r.path, h, ty, t⟩ : Row) else r) = id r := by
    intro r hr
    have hrq : r.path = q := by
      have := (List.mem_filter.mp hr).2
      simpa using this
    rw [if_neg (by simp [hrq]; exact fun hc => hne hc.symm)]
    rfl
  rw [List.map_congr_left this, List.map_id]

theorem rowsAt_updateRows_self (store : List Row) (p : String) (h : Option (List Nat))
    (ty : Nat) (t : Int) :
    rowsAt (updateRows store p h ty t) p
      = (rowsAt store p).map (fun _ => (⟨p, h, ty, t⟩ : Row)) := by
  rw [rowsAt_updateRows]
  refine List.map_congr_left ?_
  intro r hr
  have hrq : r.path = p := by
    have := (List.mem_filter.mp hr).2
    simpa using this
  rw [if_pos (by simp [hrq])]
  simp [hrq]

theorem rowsAt_insertRow_ne (store : List Row) (r : Row) (q : String) (hne : r.path ≠ q) :
    rowsAt (insertRow store r) q = rowsAt store q := by
  rw [rowsAt_insertRow, if_neg (by simpa using hne)]
  simp

/-! ### Invariants relating scans -/

/-- The rows at a directory's path are in the canonical post-scan state:
at least one row, and every row equal to `⟨q, NULL, TY_DIR, t⟩` for one
index time `t > m` (the directory's mtime), so that the next scan computes
`full_rescan = False` for it. -/
def DirOk (store : List Row) (q : String) (m : Int) : Prop :=
  ∃ t : Int, m < t ∧ rowsAt store q ≠ [] ∧
    ∀ r ∈ rowsAt store q, r = ⟨q, none, TY_DIR, t⟩

/-- The skip condition of `_add_file` holds for the file at path `q` with
mtime `m`: a row exists, its hash is non-null and `m ≤ ix_time`. -/
def FileOk (store : List Row) (q : String) (m : Int) : Prop :=
  fileRescan (lookupPath store q) m = false

theorem DirOk.transfer {S T : List Row} {q : String} {m : Int}
    (h : DirOk S q m) (heq : rowsAt T q = rowsAt S q) : DirOk T q m := by
  obtain ⟨t, h1, h2, h3⟩ := h
  exact ⟨t, h1, by rw [heq]; exact h2, by rw [heq]; exact h3⟩

theorem DirOk.lookup_eq {S : List Row} {q : String} {m : Int} (h : DirOk S q m) :
    ∃ t : Int, m < t ∧ lookupPath S q = some ⟨q, none, TY_DIR, t⟩ := by
  obtain ⟨t, h1, h2, h3⟩ := h
  refine ⟨t, h1, ?_⟩
  rw [lookupPath_eq_head]
  cases hc : rowsAt S q with
  | nil => exact absurd hc h2
  | cons r tl =>
    have : r = ⟨q, none, TY_DIR, t⟩ := h3 r (by rw [hc]; exact List.mem_cons_self r tl)
    simp [List.head?, this]

/-- Rows `r` (before the second scan) and `s` (after) agree, except
possibly on the index timestamp when the path belongs to `D` (the
directory paths of the rescanned subtree). -/
def RelB (D : List String) (r s : Row) : Prop :=
  r.path = s.path ∧ r.hash = s.hash ∧ r.ty = s.ty ∧ (r.path ∈ D ∨ r.ix_time = s.ix_time)

theorem RelB.refl' (D : List String) (r : Row) : RelB D r r := ⟨rfl, rfl, rfl, Or.inr rfl⟩

theorem RelB.trans' {D : List String} {r s t : Row} (h1 : RelB D r s) (h2 : RelB D s t) :
    RelB D r t := by
  obtain ⟨a1, a2, a3, a4⟩ := h1
  obtain ⟨b1, b2, b3, b4⟩ := h2
  refine ⟨a1.trans b1, a2.trans b2, a3.trans b3, ?_⟩
  rcases a4 with h | h
  · exact Or.inl h
  · rcases b4 with h2 | h2
    · exact Or.inl (a1 ▸ h2)
    · exact Or.inr (h.trans h2)

theorem RelB.mono {D E : List String} {r s : Row} (hDE : ∀ x ∈ D, x ∈ E)
    (h : RelB D r s) : RelB E r s := by
  obtain ⟨a1, a2, a3, a4⟩ := h
  refine ⟨a1, a2, a3, ?_⟩
  rcases a4 with h | h
  · exact Or.inl (hDE _ h)
  · exact Or.inr h

theorem forall₂RelB_refl (D : List String) (S : List Row) :
    List.Forall₂ (RelB D) S S :=
  List.forall₂_same.mpr (fun r _ => RelB.refl' D r)

theorem forall₂RelB_trans {D : List String} {S T U : List Row}
    (h1 : List.Forall₂ (RelB D) S T) (h2 : List.Forall₂ (RelB D) T U) :
    List.Forall₂ (RelB D) S U := by
  induction h1 generalizing U with
  | nil =>
    cases h2
    exact List.Forall₂.nil
  | cons hr htl ih =>
    cases h2 with
    | cons hr2 htl2 => exact List.Forall₂.cons (hr.trans' hr2) (ih htl2)

theorem forall₂RelB_mono {D E : List String} {S T : List Row} (hDE : ∀ x ∈ D, x ∈ E)
    (h : List.Forall₂ (RelB D) S T) : List.Forall₂ (RelB E) S T := by
  induction h with
  | nil => exact List.Forall₂.nil
  | cons hr htl ih => exact List.Forall₂.cons (hr.mono hDE) ih

/-- Pointwise agreement away from `D` leaves the rows at any path outside
`D` untouched. -/
theorem forall₂RelB_rowsAt {D : List String} {S T : List Row}
    (h : List.Forall₂ (RelB D) S T) (q : String) (hq : q ∉ D) :
    rowsAt T q = rowsAt S q := by
  induction h with
  | nil => rfl
  | cons hr htl ih =>
    rename_i a b l1 l2
    obtain ⟨h1, h2, h3, h4⟩ := hr
    simp only [rowsAt, List.filter_cons] at ih ⊢
    by_cases hc : a.path == q
    · have hab : a = b := by
        refine Row.eq_of_fields h1 h2 h3 ?_
        rcases h4 with hin | heq
        · exfalso
          have : a.path = q := by simpa using hc
          rw [this] at hin
          exact hq hin
        · exact heq
      rw [← h1, ← hab, if_pos hc, if_pos hc, ih]
    · rw [← h1, if_neg hc, if_neg hc, ih]

/-! ### Per-operation facts -/

theorem fileRescan_eq_false_iff (db_data : Option Row) (mtime : Int) :
    fileRescan db_data mtime = false
      ↔ ∃ r, db_data = some r ∧ r.hash ≠ none ∧ mtime ≤ r.ix_time := by
  cases db_data with
  | none => simp [fileRescan]
  | some r => simp [fileRescan, Option.isSome_iff_ne_none]

theorem dirFullRescan_eq_true_iff (db_data : Option Row) (mtime : Int) :
    dirFullRescan db_data mtime = true
      ↔ (db_data = none ∨ ∃ r, db_data = some r ∧ ¬ (mtime < r.ix_time)) := by
  cases db_data with
  | none => simp [dirFullRescan]
  | some r => simp [dirFullRescan]

theorem addFile_skip (H : List Nat → List Nat) (rp : String) (content : List Nat)
    (mtime : Int) (st : ScanSt) (h : fileRescan (lookupPath st.store rp) mtime = false) :
    addFile H rp content mtime st
      = ⟨st.store, st.now, st.hashed, st.progBytes + content.length, st.progNodes + 1⟩ := by
  unfold addFile
  rw [if_neg (by simp [h])]

theorem addFile_rescan (H : List Nat → List Nat) (rp : String) (content : List Nat)
    (mtime : Int) (st : ScanSt) (h : fileRescan (lookupPath st.store rp) mtime = true) :
    addFile H rp content mtime st
      = ⟨match lookupPath st.store rp with
          | some _ => updateRows st.store rp (some (digestOf H content)) TY_FILE st.now
          | none => insertRow st.store ⟨rp, some (digestOf H content), TY_FILE, st.now⟩,
         st.now + 1, st.hashed + 1, st.progBytes + content.length, st.progNodes + 1⟩ := by
  unfold addFile
  rw [if_pos (by simp [h])]

theorem addFile_now_mono (H : List Nat → List Nat) (rp : String) (content : List Nat)
    (mtime : Int) (st : ScanSt) : st.now ≤ (addFile H rp content mtime st).now := by
  by_cases h : fileRescan (lookupPath st.store rp) mtime = true
  · rw [addFile_rescan H rp content mtime st h]
    show st.now ≤ st.now + 1
    omega
  · rw [addFile_skip H rp content mtime st (by simpa using h)]

theorem addFile_rowsAt_ne (H : List Nat → List Nat) (rp : String) (content : List Nat)
    (mtime : Int) (st : ScanSt) (q : String) (hne : rp ≠ q) :
    rowsAt (addFile H rp content mtime st).store q = rowsAt st.store q := by
  by_cases h : fileRescan (lookupPath st.store rp) mtime = true
  · rw [addFile_rescan H rp content mtime st h]
    cases hl : lookupPath st.store rp with
    | some r =>
      show rowsAt (updateRows st.store rp (some (digestOf H content)) TY_FILE st.now) q = _
      exact rowsAt_updateRows_ne st.store rp _ TY_FILE st.now q hne
    | none =>
      show rowsAt (insertRow st.store ⟨rp, some (digestOf H content), TY_FILE, st.now⟩) q = _
      exact rowsAt_insertRow_ne st.store _ q hne
  · rw [addFile_skip H rp content mtime st (by simpa using h)]

theorem upsertDir_rowsAt_ne (rp : String) (b : Bool) (st : ScanSt) (q : String)
    (hne : rp ≠ q) :
    rowsAt (upsertDir rp b st).store q = rowsAt st.store q := by
  cases b with
  | true =>
    show rowsAt (updateRows st.store rp none TY_DIR st.now) q = _
    exact rowsAt_updateRows_ne st.store rp none TY_DIR st.now q hne
  | false =>
    show rowsAt (insertRow st.store ⟨rp, none, TY_DIR, st.now⟩) q = _
    exact rowsAt_insertRow_ne st.store _ q hne

/-! ### Subtree bookkeeping -/

mutual
theorem nodeDirs_fst_subset (n : FsNode) :
    ∀ qm ∈ nodeDirs n, qm.1 ∈ nodePaths n := by
  cases n with
  | file a b c =>
    intro qm hqm
    simp [nodeDirs] at hqm
  | dir a m cs =>
    intro qm hqm
    simp only [nodeDirs, List.mem_cons] at hqm
    rcases hqm with h | h
    · subst h
      simp [nodePaths]
    · have := forestDirs_fst_subset cs qm h
      simp [nodePaths, this]

theorem forestDirs_fst_subset (cs : FsForest) :
    ∀ qm ∈ forestDirs cs, qm.1 ∈ forestPaths cs := by
  cases cs with
  | nil =>
    intro qm hqm
    simp [forestDirs] at hqm
  | cons c rest =>
    intro qm hqm
    simp only [forestDirs, List.mem_append] at hqm
    rcases hqm with h | h
    · have := nodeDirs_fst_subset c qm h
      simp [forestPaths, this]
    · have := forestDirs_fst_subset rest qm h
      simp [forestPaths, this]
end

mutual
theorem nodeDirs_snd_subset (n : FsNode) :
    ∀ qm ∈ nodeDirs n, qm.2 ∈ nodeMtimes n := by
  cases n with
  | file a b c =>
    intro qm hqm
    simp [nodeDirs] at hqm
  | dir a m cs =>
    intro qm hqm
    simp only [nodeDirs, List.mem_cons] at hqm
    rcases hqm with h | h
    · subst h
      simp [nodeMtimes]
    · have := forestDirs_snd_subset cs qm h
      simp [nodeMtimes, this]

theorem forestDirs_snd_subset (cs : FsForest) :
    ∀ qm ∈ forestDirs cs, qm.2 ∈ forestMtimes cs := by
  cases cs with
  | nil =>
    intro qm hqm
    simp [forestDirs] at hqm
  | cons c rest =>
    intro qm hqm
    simp only [forestDirs, List.mem_append] at hqm
    rcases hqm with h | h
    · have := nodeDirs_snd_subset c qm h
      simp [forestMtimes, this]
    · have := forestDirs_snd_subset rest qm h
      simp [forestMtimes, this]
end

/-! ### Clock monotonicity of the scan -/

mutual
theorem addPath_now_mono (H : List Nat → List Nat) (n : FsNode) (st : ScanSt) :
    st.now ≤ (addPath H n st).now := by
  cases n with
  | file rp content mtime => exact addFile_now_mono H rp content mtime st
  | dir rp mtime cs =>
    have h1 := addForest_now_mono H (dirFullRescan (lookupPath st.store rp) mtime) cs st
    rw [addPath_dir]
    simp only [upsertDir]
    omega

theorem addForest_now_mono (H : List Nat → List Nat) (fr : Bool)
    (cs : FsForest) (st : ScanSt) : st.now ≤ (addForest H fr cs st).now := by
  cases cs with
  | nil => exact le_refl _
  | cons c rest =>
    have hstep : st.now
        ≤ ((if c.isDir || fr then addPath H c st else skipChild c st)).now := by
      by_cases h : (c.isDir || fr) = true
      · rw [if_pos h]
        exact addPath_now_mono H c st
      · rw [if_neg h]
        exact le_refl _
    have h2 := addForest_now_mono H fr rest
      (if c.isDir || fr then addPath H c st else skipChild c st)
    rw [addForest_cons]
    omega
end

/-! ### Locality: a scan only writes rows at paths of its subtree -/

mutual
theorem addPath_rowsAt_outside (H : List Nat → List Nat) (n : FsNode)
    (st : ScanSt) (q : String) (hq : q ∉ nodePaths n) :
    rowsAt (addPath H n st).store q = rowsAt st.store q := by
  cases n with
  | file rp content mtime =>
    have hne : rp ≠ q := by
      intro h
      exact hq (by simp [nodePaths, h])
    exact addFile_rowsAt_ne H rp content mtime st q hne
  | dir rp mtime cs =>
    have hne : rp ≠ q := by
      intro h
      exact hq (by simp [nodePaths, h])
    have hqf : q ∉ forestPaths cs := by
      intro h
      exact hq (by simp [nodePaths, h])
    have h1 := addForest_rowsAt_outside H (dirFullRescan (lookupPath st.store rp) mtime)
      cs st q hqf
    rw [addPath_dir, upsertDir_rowsAt_ne rp _ _ q hne, h1]

theorem addForest_rowsAt_outside (H : List Nat → List Nat) (fr : Bool)
    (cs : FsForest) (st : ScanSt) (q : String) (hq : q ∉ forestPaths cs) :
    rowsAt (addForest H fr cs st).store q = rowsAt st.store q := by
  cases cs with
  | nil => rfl
  | cons c rest =>
    have hqc : q ∉ nodePaths c := by
      intro h
      exact hq (by simp [forestPaths, h])
    have hqr : q ∉ forestPaths rest := by
      intro h
      exact hq (by simp [forestPaths, h])
    have hstep : rowsAt ((if c.isDir || fr then addPath H c st
        else skipChild c st)).store q = rowsAt st.store q := by
      by_cases h : (c.isDir || fr) = true
      · rw [if_pos h]
        exact addPath_rowsAt_outside H c st q hqc
      · rw [if_neg h]
        rfl
    have h2 := addForest_rowsAt_outside H fr rest
      (if c.isDir || fr then addPath H c st else skipChild c st) q hqr
    rw [addForest_cons, h2, hstep]
end

/-! ### What the first scan establishes -/

theorem lookupPath_updateRows_self (store : List Row) (rp : String) (h : Option (List Nat))
    (ty : Nat) (t : Int) (r : Row) (hl : lookupPath store rp = some r) :
    lookupPath (updateRows store rp h ty t) rp = some ⟨rp, h, ty, t⟩ := by
  rw [lookupPath_eq_head] at hl ⊢
  rw [rowsAt_updateRows_self]
  cases hc : rowsAt store rp with
  | nil =>
    rw [hc] at hl
    exact absurd hl (by simp)
  | cons a tl => simp

theorem lookupPath_insertRow_self (store : List Row) (r : Row)
    (hl : lookupPath store r.path = none) :
    lookupPath (insertRow store r) r.path = some r := by
  rw [lookupPath_eq_head] at hl ⊢
  rw [rowsAt_insertRow, if_pos (by simp)]
  have : rowsAt store r.path = [] := by
    cases hc : rowsAt store r.path with
    | nil => rfl
    | cons a tl =>
      rw [hc] at hl
      exact absurd hl (by simp)
  rw [this]
  rfl

/-- Method `_add_file` leaves the file skippable: after it runs (whatever branch
was taken), the row at `rp` satisfies the skip condition, provided the
file's mtime is in the past. -/
theorem scan1_file_ok (H : List Nat → List Nat) (rp : String) (content : List Nat)
    (mtime : Int) (st : ScanSt) (hm : mtime < st.now) :
    FileOk (addFile H rp content mtime st).store rp mtime := by
  by_cases h : fileRescan (lookupPath st.store rp) mtime = true
  · rw [FileOk, addFile_rescan H rp content mtime st h]
    cases hl : lookupPath st.store rp with
    | some r =>
      show fileRescan
        (lookupPath (updateRows st.store rp (some (digestOf H content)) TY_FILE st.now) rp)
        mtime = false
      rw [lookupPath_updateRows_self st.store rp _ TY_FILE st.now r hl]
      simp [fileRescan]
      omega
    | none =>
      show fileRescan
        (lookupPath (insertRow st.store ⟨rp, some (digestOf H content), TY_FILE, st.now⟩) rp)
        mtime = false
      rw [lookupPath_insertRow_self st.store ⟨rp, some (digestOf H content), TY_FILE, st.now⟩ hl]
      simp [fileRescan]
      omega
  · have hf : fileRescan (lookupPath st.store rp) mtime = false := by simpa using h
    rw [FileOk, addFile_skip H rp content mtime st hf]
    exact hf

/-- The directory upsert puts the rows at `rp` into the canonical
`DirOk` state, given the mtime is in the past of the write time. -/
theorem upsertDir_dirOk (rp : String) (st st1 : ScanSt) (mtime : Int)
    (hrows : rowsAt st1.store rp = rowsAt st.store rp)
    (hm : mtime < st1.now) :
    DirOk (upsertDir rp (lookupPath st.store rp).isSome st1).store rp mtime := by
  cases hl : lookupPath st.store rp with
  | some r =>
    have hne : rowsAt st.store rp ≠ [] := by
      rw [lookupPath_eq_head] at hl
      intro hc
      rw [hc] at hl
      exact absurd hl (by simp)
    show DirOk (updateRows st1.store rp none TY_DIR st1.now) rp mtime
    refine ⟨st1.now, hm, ?_, ?_⟩
    · rw [rowsAt_updateRows_self, hrows]
      simp [hne]
    · intro r2 hr2
      rw [rowsAt_updateRows_self] at hr2
      obtain ⟨r3, _, hr3⟩ := List.mem_map.mp hr2
      exact hr3.symm
  | none =>
    have hemp : rowsAt st.store rp = [] := by
      rw [lookupPath_eq_head] at hl
      cases hc : rowsAt st.store rp with
      | nil => rfl
      | cons a tl =>
        rw [hc] at hl
        exact absurd hl (by simp)
    show DirOk (insertRow st1.store ⟨rp, none, TY_DIR, st1.now⟩) rp mtime
    refine ⟨st1.now, hm, ?_, ?_⟩
    · rw [rowsAt_insertRow, if_pos (by simp), hrows, hemp]
      simp
    · intro r2 hr2
      rw [rowsAt_insertRow, if_pos (by simp), hrows, hemp] at hr2
      simpa using hr2

mutual
/-- After `_add_path` on a subtree whose mtimes all lie in the past,
every directory of the subtree is in the canonical `DirOk` state. -/
theorem scan1_node (H : List Nat → List Nat) (n : FsNode) (st : ScanSt)
    (hm : ∀ m ∈ nodeMtimes n, m < st.now)
    (hnd : (nodePaths n).Nodup) :
    ∀ qm ∈ nodeDirs n, DirOk (addPath H n st).store qm.1 qm.2 := by
  cases n with
  | file rp content mtime =>
    intro qm hqm
    simp [nodeDirs] at hqm
  | dir rp mtime cs =>
    intro qm hqm
    have hrp : rp ∉ forestPaths cs := by
      have := hnd
      simp only [nodePaths, List.nodup_cons] at this
      exact this.1
    have hnd2 : (forestPaths cs).Nodup := by
      have := hnd
      simp only [nodePaths, List.nodup_cons] at this
      exact this.2
    have hm2 : ∀ m ∈ forestMtimes cs, m < st.now := by
      intro m hmm
      exact hm m (by simp [nodeMtimes, hmm])
    have hrows := addForest_rowsAt_outside H (dirFullRescan (lookupPath st.store rp) mtime)
      cs st rp hrp
    rw [addPath_dir]
    simp only [nodeDirs, List.mem_cons] at hqm
    rcases hqm with h | h
    · subst h
      refine upsertDir_dirOk rp st
        (addForest H (dirFullRescan (lookupPath st.store rp) mtime) cs st) mtime hrows ?_
      have h1 : mtime < st.now := hm mtime (by simp [nodeMtimes])
      have h2 := addForest_now_mono H (dirFullRescan (lookupPath st.store rp) mtime) cs st
      omega
    · have h1 := scan1_forest H (dirFullRescan (lookupPath st.store rp) mtime) cs st hm2
        hnd2 qm h
      have hq : qm.1 ∈ forestPaths cs := forestDirs_fst_subset cs qm h
      have hne : rp ≠ qm.1 := by
        intro hc
        rw [hc] at hrp
        exact hrp hq
      exact h1.transfer (upsertDir_rowsAt_ne rp _ _ qm.1 hne)

theorem scan1_forest (H : List Nat → List Nat) (fr : Bool) (cs : FsForest) (st : ScanSt)
    (hm : ∀ m ∈ forestMtimes cs, m < st.now)
    (hnd : (forestPaths cs).Nodup) :
    ∀ qm ∈ forestDirs cs, DirOk (addForest H fr cs st).store qm.1 qm.2 := by
  cases cs with
  | nil =>
    intro qm hqm
    simp [forestDirs] at hqm
  | cons c rest =>
    intro qm hqm
    have hnc : (nodePaths c).Nodup := by
      have := hnd
      simp only [forestPaths, List.nodup_append] at this
      exact this.1
    have hnr : (forestPaths rest).Nodup := by
      have := hnd
      simp only [forestPaths, List.nodup_append] at this
      exact this.2.1
    have hdisj : ∀ a ∈ nodePaths c, a ∉ forestPaths rest := by
      have := hnd
      simp only [forestPaths, List.nodup_append] at this
      exact this.2.2
    have hmc : ∀ m ∈ nodeMtimes c, m < st.now := by
      intro m hmm
      exact hm m (by simp [forestMtimes, hmm])
    have hmr : ∀ m ∈ forestMtimes rest, m < st.now := by
      intro m hmm
      exact hm m (by simp [forestMtimes, hmm])
    rw [addForest_cons]
    simp only [forestDirs, List.mem_append] at hqm
    rcases hqm with h | h
    · -- a directory inside the child `c`: `c` must itself be a directory
      have hcdir : c.isDir = true := by
        cases c with
        | file a b c2 => simp [nodeDirs] at h
        | dir a b c2 => rfl
      have hstep : (if c.isDir || fr then addPath H c st else skipChild c st)
          = addPath H c st := by
        rw [if_pos (by simp [hcdir])]
      rw [hstep]
      have h1 := scan1_node H c st hmc hnc qm h
      have hq : qm.1 ∈ nodePaths c := nodeDirs_fst_subset c qm h
      have hqr : qm.1 ∉ forestPaths rest := hdisj qm.1 hq
      exact h1.transfer (addForest_rowsAt_outside H fr rest (addPath H c st) qm.1 hqr)
    · have hmono : st.now
          ≤ ((if c.isDir || fr then addPath H c st else skipChild c st)).now := by
        by_cases hb : (c.isDir || fr) = true
        · rw [if_pos hb]
          exact addPath_now_mono H c st
        · rw [if_neg hb]
          exact le_refl _
      have hmr2 : ∀ m ∈ forestMtimes rest,
          m < ((if c.isDir || fr then addPath H c st else skipChild c st)).now := by
        intro m hmm
        have := hmr m hmm
        omega
      exact scan1_forest H fr rest
        (if c.isDir || fr then addPath H c st else skipChild c st) hmr2 hnr qm h
end

/-! ### What the second scan does -/

/-- Updating the rows at a path that already carry `(NULL, TY_DIR)` only
moves their index timestamps: pointwise `RelB` agreement. -/
theorem forall₂RelB_updateRows (S : List Row) (rp : String) (t2 : Int) (D : List String)
    (hin : rp ∈ D)
    (hrows : ∀ r ∈ rowsAt S rp, r.hash = none ∧ r.ty = TY_DIR) :
    List.Forall₂ (RelB D) S (updateRows S rp none TY_DIR t2) := by
  induction S with
  | nil => exact List.Forall₂.nil
  | cons r rest ih =>
    have hrec := ih (fun r2 hr2 => hrows r2 (by
      simp only [rowsAt, List.filter_cons]
      by_cases hc : r.path == rp
      · rw [if_pos hc]
        exact List.mem_cons_of_mem r ((List.mem_filter.mp hr2).imp_left id |> fun _ => hr2)
      · rw [if_neg hc]
        exact hr2))
    show List.Forall₂ (RelB D) (r :: rest)
      ((if r.path == rp then (⟨r.path, none, TY_DIR, t2⟩ : Row) else r) :: updateRows rest rp none TY_DIR t2)
    refine List.Forall₂.cons ?_ hrec
    by_cases hc : r.path == rp
    · rw [if_pos hc]
      have hrp : r.path = rp := by simpa using hc
      have hmem : r ∈ rowsAt (r :: rest) rp := by
        simp only [rowsAt, List.filter_cons, if_pos hc]
        exact List.mem_cons_self r _
      obtain ⟨hh, ht⟩ := hrows r hmem
      exact ⟨rfl, by simpa using hh, by simpa using ht, Or.inl (by rw [hrp]; exact hin)⟩
    · rw [if_neg hc]
      exact RelB.refl' D r

mutual
/-- Second scan of a subtree all of whose directories are in the
canonical `DirOk` state (and whose root, if a file, satisfies the skip
condition): no file is hashed, and the store changes only in the index
timestamps of the subtree's directory rows. -/
theorem scan2_node (H : List Nat → List Nat) (n : FsNode) (st : ScanSt)
    (hnd : (nodePaths n).Nodup)
    (hdirs : ∀ qm ∈ nodeDirs n, DirOk st.store qm.1 qm.2)
    (hfile : ∀ rp content mtime, n = FsNode.file rp content mtime →
      FileOk st.store rp mtime) :
    (addPath H n st).hashed = st.hashed ∧
    List.Forall₂ (RelB ((nodeDirs n).map Prod.fst)) st.store (addPath H n st).store := by
  cases n with
  | file rp content mtime =>
    have hok := hfile rp content mtime rfl
    rw [addPath_file, addFile_skip H rp content mtime st hok]
    exact ⟨rfl, forall₂RelB_refl _ _⟩
  | dir rp mtime cs =>
    have hd : DirOk st.store rp mtime := hdirs (rp, mtime) (by simp [nodeDirs])
    obtain ⟨t, hmt, hlk⟩ := hd.lookup_eq
    have hfr : dirFullRescan (lookupPath st.store rp) mtime = false := by
      rw [hlk]
      simp [dirFullRescan, hmt]
    have hrp : rp ∉ forestPaths cs := by
      have := hnd
      simp only [nodePaths, List.nodup_cons] at this
      exact this.1
    have hnd2 : (forestPaths cs).Nodup := by
      have := hnd
      simp only [nodePaths, List.nodup_cons] at this
      exact this.2
    have hdirs2 : ∀ qm ∈ forestDirs cs, DirOk st.store qm.1 qm.2 := by
      intro qm hqm
      exact hdirs qm (by simp [nodeDirs, hqm])
    have h1 := scan2_forest H cs st hnd2 hdirs2
    have hrpD : rp ∉ (forestDirs cs).map Prod.fst := by
      intro hc
      obtain ⟨qm, hqm, hq⟩ := List.mem_map.mp hc
      rw [← hq] at hrp
      exact hrp (forestDirs_fst_subset cs qm hqm)
    have hrows1 : rowsAt (addForest H false cs st).store rp = rowsAt st.store rp :=
      forall₂RelB_rowsAt h1.2 rp hrpD
    have hrowsty : ∀ r ∈ rowsAt (addForest H false cs st).store rp,
        r.hash = none ∧ r.ty = TY_DIR := by
      intro r hr
      rw [hrows1] at hr
      obtain ⟨t2, _, _, hall⟩ := hd
      have := hall r hr
      rw [this]
      exact ⟨rfl, rfl⟩
    rw [addPath_dir, hfr, hlk]
    show (upsertDir rp true (addForest H false cs st)).hashed = st.hashed ∧ _
    constructor
    · have h2 : (upsertDir rp true (addForest H false cs st)).hashed
          = (addForest H false cs st).hashed := rfl
      rw [h2, h1.1]
    · have hupd := forall₂RelB_updateRows (addForest H false cs st).store rp
        (addForest H false cs st).now ((nodeDirs (FsNode.dir rp mtime cs)).map Prod.fst)
        (by simp [nodeDirs]) hrowsty
      have hsub : ∀ x ∈ (forestDirs cs).map Prod.fst,
          x ∈ (nodeDirs (FsNode.dir rp mtime cs)).map Prod.fst := by
        intro x hx
        simp only [nodeDirs, List.map_cons, List.mem_cons]
        exact Or.inr hx
      exact forall₂RelB_trans (forall₂RelB_mono hsub h1.2) hupd

theorem scan2_forest (H : List Nat → List Nat) (cs : FsForest) (st : ScanSt)
    (hnd : (forestPaths cs).Nodup)
    (hdirs : ∀ qm ∈ forestDirs cs, DirOk st.store qm.1 qm.2) :
    (addForest H false cs st).hashed = st.hashed ∧
    List.Forall₂ (RelB ((forestDirs cs).map Prod.fst)) st.store (addForest H false cs st).store := by
  cases cs with
  | nil =>
    rw [addForest_nil]
    exact ⟨rfl, forall₂RelB_refl _ _⟩
  | cons c rest =>
    have hnc : (nodePaths c).Nodup := by
      have := hnd
      simp only [forestPaths, List.nodup_append] at this
      exact this.1
    have hnr : (forestPaths rest).Nodup := by
      have := hnd
      simp only [forestPaths, List.nodup_append] at this
      exact this.2.1
    have hdisj : ∀ a ∈ nodePaths c, a ∉ forestPaths rest := by
      have := hnd
      simp only [forestPaths, List.nodup_append] at this
      exact this.2.2
    rw [addForest_cons]
    cases c with
    | file rp content mtime =>
      have hstep : (if (FsNode.file rp content mtime).isDir || false
          then addPath H (FsNode.file rp content mtime) st
          else skipChild (FsNode.file rp content mtime) st)
          = skipChild (FsNode.file rp content mtime) st := by
        rw [if_neg (by simp [FsNode.isDir])]
      rw [hstep]
      have hdirs2 : ∀ qm ∈ forestDirs rest,
          DirOk (skipChild (FsNode.file rp content mtime) st).store qm.1 qm.2 := by
        intro qm hqm
        exact hdirs qm (by simp [forestDirs, nodeDirs, hqm])
      have h1 := scan2_forest H rest (skipChild (FsNode.file rp content mtime) st) hnr hdirs2
      constructor
      · rw [h1.1]
        rfl
      · have hD : (forestDirs (FsForest.cons (FsNode.file rp content mtime) rest)).map Prod.fst
            = (forestDirs rest).map Prod.fst := by
          simp [forestDirs, nodeDirs]
        rw [hD]
        exact h1.2
    | dir rp mtime cs2 =>
      have hstep : (if (FsNode.dir rp mtime cs2).isDir || false
          then addPath H (FsNode.dir rp mtime cs2) st
          else skipChild (FsNode.dir rp mtime cs2) st)
          = addPath H (FsNode.dir rp mtime cs2) st := by
        rw [if_pos (by simp [FsNode.isDir])]
      rw [hstep]
      have hdirsc : ∀ qm ∈ nodeDirs (FsNode.dir rp mtime cs2), DirOk st.store qm.1 qm.2 := by
        intro qm hqm
        exact hdirs qm (by simp [forestDirs, hqm])
      have h1 := scan2_node H (FsNode.dir rp mtime cs2) st hnc hdirsc
        (by intro a b c hc; cases hc)
      have hdirs2 : ∀ qm ∈ forestDirs rest,
          DirOk (addPath H (FsNode.dir rp mtime cs2) st).store qm.1 qm.2 := by
        intro qm hqm
        have hq : qm.1 ∈ forestPaths rest := forestDirs_fst_subset rest qm hqm
        have hqD : qm.1 ∉ (nodeDirs (FsNode.dir rp mtime cs2)).map Prod.fst := by
          intro hc
          obtain ⟨qm2, hqm2, hq2⟩ := List.mem_map.mp hc
          have h3 := nodeDirs_fst_subset (FsNode.dir rp mtime cs2) qm2 hqm2
          rw [hq2] at h3
          exact hdisj qm.1 h3 hq
        have := forall₂RelB_rowsAt h1.2 qm.1 hqD
        exact (hdirs qm (by simp [forestDirs, hqm])).transfer this
      have h2 := scan2_forest H rest (addPath H (FsNode.dir rp mtime cs2) st) hnr hdirs2
      constructor
      · rw [h2.1, h1.1]
      · have hsub1 : ∀ x ∈ (nodeDirs (FsNode.dir rp mtime cs2)).map Prod.fst,
            x ∈ (forestDirs (FsForest.cons (FsNode.dir rp mtime cs2) rest)).map Prod.fst := by
          intro x hx
          simp only [forestDirs, List.map_append, List.mem_append]
          exact Or.inl hx
        have hsub2 : ∀ x ∈ (forestDirs rest).map Prod.fst,
            x ∈ (forestDirs (FsForest.cons (FsNode.dir rp mtime cs2) rest)).map Prod.fst := by
          intro x hx
          simp only [forestDirs, List.map_append, List.mem_append]
          exact Or.inr hx
        exact forall₂RelB_trans (forall₂RelB_mono hsub1 h1.2) (forall₂RelB_mono hsub2 h2.2)
end

/-! ### Claim theorems about the indexer -/

/-- C2: during an index scan, a file node is skipped — store untouched
and nothing hashed — if and only if a row for its relative path exists,
that row's hash is non-null, and the file's mtime is at most the row's
recorded index time; in every other case the file is re-hashed (the hash
count is bumped) and its row is upserted with the new digest. -/
theorem addFile_skip_iff (H : List Nat → List Nat) (rp : String) (content : List Nat)
    (mtime : Int) (st : ScanSt) :
    (((addFile H rp content mtime st).store = st.store ∧
        (addFile H rp content mtime st).hashed = st.hashed)
      ↔ (∃ r, lookupPath st.store rp = some r ∧ r.hash ≠ none ∧ mtime ≤ r.ix_time)) ∧
    (¬ (∃ r, lookupPath st.store rp = some r ∧ r.hash ≠ none ∧ mtime ≤ r.ix_time) →
      (addFile H rp content mtime st).hashed = st.hashed + 1 ∧
      (addFile H rp content mtime st).store
        = (match lookupPath st.store rp with
            | some _ => updateRows st.store rp (some (digestOf H content)) TY_FILE st.now
            | none => insertRow st.store ⟨rp, some (digestOf H content), TY_FILE, st.now⟩)) := by
  by_cases h : fileRescan (lookupPath st.store rp) mtime = true
  · have hniff : ¬ (∃ r, lookupPath st.store rp = some r ∧ r.hash ≠ none ∧
        mtime ≤ r.ix_time) := by
      rw [← fileRescan_eq_false_iff]
      simp [h]
    rw [addFile_rescan H rp content mtime st h]
    constructor
    · constructor
      · intro hc
        have hh : st.hashed + 1 = st.hashed := hc.2
        omega
      · intro hex
        exact absurd hex hniff
    · intro _
      exact ⟨rfl, rfl⟩
  · have hf : fileRescan (lookupPath st.store rp) mtime = false := by simpa using h
    have hiff := (fileRescan_eq_false_iff (lookupPath st.store rp) mtime).mp hf
    rw [addFile_skip H rp content mtime st hf]
    constructor
    · constructor
      · intro _
        exact hiff
      · intro _
        exact ⟨rfl, rfl⟩
    · intro hex
      exact absurd hiff hex

/-- C3: `full_rescan` of a directory is true iff no row exists for its
relative path or its mtime is not strictly below the row's index time;
the directory is processed by running the child loop and then upserting
its own row; when `full_rescan` is false an immediate regular-file child
only advances the progress counters (same store, clock and hash count),
while an immediate subdirectory child is still recursed into via
`_add_path`. -/
theorem addDir_shortcircuit (H : List Nat → List Nat) (rp : String) (mtime : Int)
    (cs : FsForest) (st : ScanSt) :
    (dirFullRescan (lookupPath st.store rp) mtime = true
      ↔ (lookupPath st.store rp = none ∨
          ∃ r, lookupPath st.store rp = some r ∧ ¬ (mtime < r.ix_time))) ∧
    (addPath H (FsNode.dir rp mtime cs) st
      = upsertDir rp (lookupPath st.store rp).isSome
          (addForest H (dirFullRescan (lookupPath st.store rp) mtime) cs st)) ∧
    (∀ (rp2 : String) (content : List Nat) (m2 : Int) (rest : FsForest) (st2 : ScanSt),
      addForest H false (FsForest.cons (FsNode.file rp2 content m2) rest) st2
        = addForest H false rest
            ⟨st2.store, st2.now, st2.hashed, st2.progBytes + content.length,
              st2.progNodes + 1⟩) ∧
    (∀ (rp2 : String) (m2 : Int) (cs2 : FsForest) (rest : FsForest) (st2 : ScanSt),
      addForest H false (FsForest.cons (FsNode.dir rp2 m2 cs2) rest) st2
        = addForest H false rest (addPath H (FsNode.dir rp2 m2 cs2) st2)) := by
  refine ⟨dirFullRescan_eq_true_iff _ _, addPath_dir H rp mtime cs st, ?_, ?_⟩
  · intro rp2 content m2 rest st2
    rw [addForest_cons]
    congr 1
  · intro rp2 m2 cs2 rest st2
    rw [addForest_cons]
    congr 1

/-- One possible SQL value of a stored column: text, blob (NULL as
`none`), integer or real. -/
inductive DbVal where
  | text : String → DbVal
  | blob : Option (List Nat) → DbVal
  | intv : Nat → DbVal
  | real : Int → DbVal
deriving DecidableEq, Repr

/-- The four column values the `_add_file` upsert writes into `pkg`
(index.py lines 198-219): `(path, hash, ty, ix_time)`.  The `pkg` schema
(lines 48-56) has no size column. -/
def rowValues (r : Row) : List DbVal :=
  [DbVal.text r.path, DbVal.blob r.hash, DbVal.intv r.ty, DbVal.real r.ix_time]

/-- A row contains the file's size in bytes if the size occurs among its
stored column values as an integer or real. -/
def rowHasSize (r : Row) (n : Nat) : Prop :=
  DbVal.intv n ∈ rowValues r ∨ DbVal.real (Int.ofNat n) ∈ rowValues r

/-- C7, counterexample: a fresh 3-byte file is hashed and upserted, but
the upserted row is just `(path, digest, TY_FILE, time)` — none of its
column values is the file's size 3, because the `pkg` table has no size
column. -/
theorem addFile_no_size_cex :
    fileRescan (lookupPath ([] : List Row) "f") 0 = true ∧
    lookupPath (addFile (fun l => l) "f" [1, 2, 3] 0 ⟨[], 7, 0, 0, 0⟩).store "f"
      = some ⟨"f", some [1, 2, 3], TY_FILE, 7⟩ ∧
    ([1, 2, 3] : List Nat).length = 3 ∧
    ¬ rowHasSize ⟨"f", some [1, 2, 3], TY_FILE, 7⟩ 3 := by
  refine ⟨rfl, rfl, rfl, ?_⟩
  intro hc
  rcases hc with h | h <;> simp [rowValues, TY_FILE] at h

/-- C7 (amended): for every file the indexer decides to (re)hash, the row
upserted at the file's relative path carries the SHA-256 digest of the
file's whole content (the incremental chunk hashing concatenates back to
the content), kind `TY_FILE`, and an index timestamp equal to the current
time of the upsert; the `pkg` schema stores no size. -/
theorem addFile_rescan_upsert (H : List Nat → List Nat) (rp : String) (content : List Nat)
    (mtime : Int) (st : ScanSt)
    (h : fileRescan (lookupPath st.store rp) mtime = true) :
    lookupPath (addFile H rp content mtime st).store rp
      = some ⟨rp, some (H content), TY_FILE, st.now⟩ ∧
    (addFile H rp content mtime st).hashed = st.hashed + 1 := by
  have hdg : digestOf H content = H content := digestOf_eq H content
  rw [addFile_rescan H rp content mtime st h]
  cases hl : lookupPath st.store rp with
  | some r =>
    constructor
    · show lookupPath (updateRows st.store rp (some (digestOf H content)) TY_FILE st.now) rp
        = _
      rw [lookupPath_updateRows_self st.store rp _ TY_FILE st.now r hl, hdg]
    · rfl
  | none =>
    constructor
    · show lookupPath
        (insertRow st.store ⟨rp, some (digestOf H content), TY_FILE, st.now⟩) rp = _
      rw [lookupPath_insertRow_self st.store ⟨rp, some (digestOf H content), TY_FILE, st.now⟩
        hl, hdg]
    · rfl

/-- Witness for C7's amended theorem at a concrete input. -/
theorem addFile_rescan_upsert_witness :
    fileRescan (lookupPath (([] : List Row)) "f") 0 = true ∧
    (lookupPath (addFile (fun l => l) "f" [1, 2] 0 ⟨[], 5, 0, 0, 0⟩).store "f"
        = some ⟨"f", some [1, 2], TY_FILE, 5⟩ ∧
      (addFile (fun l => l) "f" [1, 2] 0 ⟨[], 5, 0, 0, 0⟩).hashed = 0 + 1) :=
  ⟨rfl, addFile_rescan_upsert (fun l => l) "f" [1, 2] 0 ⟨[], 5, 0, 0, 0⟩ rfl⟩

/-- The subtree used for the C8 counterexample and witness: a directory
`d` (mtime 0) containing one file `d/f` (content `[1]`, mtime 0). -/
def twoScanTree : FsNode :=
  FsNode.dir "d" 0 (FsForest.cons (FsNode.file "d/f" [1] 0) FsForest.nil)

/-- C8, counterexample: scanning the unchanged subtree twice from an
empty store re-hashes nothing on the second pass, but the stored rows are
NOT identical afterwards: `_add_dir` upserts the directory row with a
fresh `ix_time = time()` on every scan, so the directory row's index
timestamp moves from 11 to 12. -/
theorem rescan_not_identical_cex :
    (addPath (fun l => l) twoScanTree
        (addPath (fun l => l) twoScanTree ⟨[], 10, 0, 0, 0⟩)).hashed
      = (addPath (fun l => l) twoScanTree ⟨[], 10, 0, 0, 0⟩).hashed ∧
    (addPath (fun l => l) twoScanTree ⟨[], 10, 0, 0, 0⟩).store
      = [⟨"d/f", some [1], TY_FILE, 10⟩, ⟨"d", none, TY_DIR, 11⟩] ∧
    (addPath (fun l => l) twoScanTree
        (addPath (fun l => l) twoScanTree ⟨[], 10, 0, 0, 0⟩)).store
      = [⟨"d/f", some [1], TY_FILE, 10⟩, ⟨"d", none, TY_DIR, 12⟩] ∧
    (addPath (fun l => l) twoScanTree
        (addPath (fun l => l) twoScanTree ⟨[], 10, 0, 0, 0⟩)).store
      ≠ (addPath (fun l => l) twoScanTree ⟨[], 10, 0, 0, 0⟩).store := by
  refine ⟨rfl, rfl, rfl, ?_⟩
  intro h
  have h2 : ([⟨"d/f", some [1], TY_FILE, 10⟩, ⟨"d", none, TY_DIR, 12⟩] : List Row)
      = [⟨"d/f", some [1], TY_FILE, 10⟩, ⟨"d", none, TY_DIR, 11⟩] := by
    calc ([⟨"d/f", some [1], TY_FILE, 10⟩, ⟨"d", none, TY_DIR, 12⟩] : List Row)
        = (addPath (fun l => l) twoScanTree
            (addPath (fun l => l) twoScanTree ⟨[], 10, 0, 0, 0⟩)).store := rfl
      _ = (addPath (fun l => l) twoScanTree ⟨[], 10, 0, 0, 0⟩).store := h
      _ = [⟨"d/f", some [1], TY_FILE, 10⟩, ⟨"d", none, TY_DIR, 11⟩] := rfl
  exact absurd h2 (by decide)

/-- C8 (amended): scanning the same unchanged subtree a second time (all
mtimes in the past, node paths distinct) re-hashes zero files, and every
stored row keeps its path, hash and kind; only the index timestamps of the
subtree's directory rows may change (and the counterexample shows they
do). -/
theorem rescan_stable (H : List Nat → List Nat) (n : FsNode) (st : ScanSt)
    (hm : ∀ m ∈ nodeMtimes n, m < st.now)
    (hnd : (nodePaths n).Nodup) :
    (addPath H n (addPath H n st)).hashed = (addPath H n st).hashed ∧
    List.Forall₂ (RelB ((nodeDirs n).map Prod.fst))
      (addPath H n st).store (addPath H n (addPath H n st)).store := by
  have hdirs := scan1_node H n st hm hnd
  have hfile : ∀ rp content mtime, n = FsNode.file rp content mtime →
      FileOk (addPath H n st).store rp mtime := by
    intro rp content mtime hn
    subst hn
    rw [addPath_file]
    exact scan1_file_ok H rp content mtime st (hm mtime (by simp [nodeMtimes]))
  exact scan2_node H n (addPath H n st) hnd hdirs hfile

/-- Witness for C8's amended theorem at a concrete input. -/
theorem rescan_stable_witness :
    ((∀ m ∈ nodeMtimes twoScanTree, m < (10 : Int)) ∧ (nodePaths twoScanTree).Nodup) ∧
    ((addPath (fun l => l) twoScanTree
          (addPath (fun l => l) twoScanTree ⟨[], 10, 0, 0, 0⟩)).hashed
        = (addPath (fun l => l) twoScanTree ⟨[], 10, 0, 0, 0⟩).hashed ∧
      List.Forall₂ (RelB ((nodeDirs twoScanTree).map Prod.fst))
        (addPath (fun l => l) twoScanTree ⟨[], 10, 0, 0, 0⟩).store
        (addPath (fun l => l) twoScanTree
          (addPath (fun l => l) twoScanTree ⟨[], 10, 0, 0, 0⟩)).store) :=
  ⟨⟨by decide, by decide⟩,
    rescan_stable (fun l => l) twoScanTree ⟨[], 10, 0, 0, 0⟩ (by decide) (by decide)⟩

end Yuunagi
